import Mathlib

/-!
Verification development for the `brave-search` crawler backend.

The Python sources under `backend/app` are shallowly embedded below:
pure string manipulation is translated to functions on `String` /
`List Char`, and every network interaction (page fetch, robots.txt fetch,
link retrieval) is a parameter of the crawl models, so that the control
flow of the crawl functions is reproduced exactly while the environment
stays abstract.

Module map:
 * `LibUtils`  — `app/lib/utils.py`
 * `AppUtils`  — `app/utils.py`
 * `Crawler`   — `app/crawler.py`
 * `Crawl`     — `app/crawl.py` (recursive crawl)
 * `ApiCrawl`  — `app/api/crawl.py` (iterative crawl)
-/

/-! ## Python-style string primitives (over `List Char`) -/

/-- Whitespace characters recognised by `str.strip()` / `str.split()`
(ASCII subset; the sources only ever see ASCII whitespace). -/
def isPyWs (c : Char) : Bool :=
  c = ' ' || c = '\t' || c = '\n' || c = '\r' || c = '\x0b' || c = '\x0c'

/-- `needle` is a prefix of `hay` — the core of `str.startswith`. -/
def listStartsWith : List Char → List Char → Bool
  | [], _ => true
  | _ :: _, [] => false
  | p :: ps, c :: cs => p == c && listStartsWith ps cs

/-- Python `s.startswith(pre)`. -/
def pyStartsWith (s pre : String) : Bool :=
  listStartsWith pre.data s.data

/-- Substring test on char lists (Python `needle in hay`). -/
def subAt (n : List Char) : List Char → Bool
  | [] => n.isEmpty
  | c :: rest => listStartsWith n (c :: rest) || subAt n rest

/-- Python `needle in hay` for strings. -/
def pyIn (needle hay : String) : Bool :=
  subAt needle.data hay.data

/-- Python `s.strip()` (both ends, whitespace). -/
def pyStripChars (cs : List Char) : List Char :=
  ((cs.dropWhile isPyWs).reverse.dropWhile isPyWs).reverse

/-- Python `s.strip()` on `String`. -/
def pyStrip (s : String) : String :=
  ⟨pyStripChars s.data⟩

/-- Line-break characters recognised by `str.splitlines()`. -/
def isLineBreak (c : Char) : Bool :=
  c = '\n' || c = '\r' || c = '\x0b' || c = '\x0c' ||
  c = '\x1c' || c = '\x1d' || c = '\x1e' || c = '\x85' ||
  c = '\u2028' || c = '\u2029'

/-- Worker for `str.splitlines()`: `acc` holds the current line reversed.
`\r\n` counts as a single break; a break at the very end does not open a
new (empty) line. -/
def slGo (acc : List Char) : List Char → List (List Char)
  | [] => [acc.reverse]
  | '\r' :: '\n' :: rest =>
    acc.reverse :: (match rest with
      | [] => []
      | r => slGo [] r)
  | c :: rest =>
    if isLineBreak c then
      acc.reverse :: (match rest with
        | [] => []
        | r => slGo [] r)
    else slGo (c :: acc) rest

/-- Python `s.splitlines()`. -/
def pySplitLines (s : String) : List String :=
  match s.data with
  | [] => []
  | cs => (slGo [] cs).map (⟨·⟩)

/-- Worker for `str.split()` with no argument: `cur` holds the current
token reversed; whitespace runs separate tokens, and leading/trailing
whitespace produces no empty tokens. -/
def pyTokensGo (cur : List Char) : List Char → List (List Char)
  | [] => if cur.isEmpty then [] else [cur.reverse]
  | c :: rest =>
    if isPyWs c then
      if cur.isEmpty then pyTokensGo [] rest
      else cur.reverse :: pyTokensGo [] rest
    else pyTokensGo (c :: cur) rest

/-- Tokens of `str.split()` with no argument: maximal runs of
non-whitespace characters. -/
def pyTokensChars (cs : List Char) : List (List Char) :=
  pyTokensGo [] cs

/-- `len(s.split())`: the word count used for page metadata. -/
def pyWordCount (s : String) : Nat :=
  (pyTokensChars s.data).length

/-- `line.split(":", 1)[1]`: everything after the first colon.  Callers in
the sources only use this after a `startswith` check that guarantees the
colon exists. -/
def afterFirstColon (cs : List Char) : List Char :=
  (cs.dropWhile (fun c => c ≠ ':')).drop 1

/-- Python `s.rstrip("/")`. -/
def pyRstripSlash (s : String) : String :=
  ⟨(s.data.reverse.dropWhile (fun c => c = '/')).reverse⟩

/-! ## `urllib.parse` model

`urlparse`/`urlsplit` restricted to the fields the sources read
(scheme, netloc, path); query and fragment are split off and discarded
since no caller reads them. -/

/-- Characters allowed in a URL scheme by `urlparse`. -/
def isSchemeChar (c : Char) : Bool :=
  c.isAlpha || c.isDigit || c = '+' || c = '-' || c = '.'

/-- Characters that terminate the netloc in `urlsplit`. -/
def endsNetloc (c : Char) : Bool :=
  c = '/' || c = '?' || c = '#'

/-- `urlsplit` on char lists: returns `(scheme, netloc, path)`.  The
scheme is recognised only when a `:` follows a non-empty run of scheme
characters starting with a letter, and is lowercased; the netloc is
parsed only after a literal `//`; query (`?...`) and fragment (`#...`)
are dropped from the path. -/
def splitUrlChars (cs : List Char) : List Char × List Char × List Char :=
  let pre := cs.takeWhile (fun c => c ≠ ':')
  let post := cs.dropWhile (fun c => c ≠ ':')
  let (scheme, rest) :=
    match post with
    | ':' :: after =>
      if pre ≠ [] ∧ (pre.headD ' ').isAlpha ∧ pre.all isSchemeChar then
        (pre.map Char.toLower, after)
      else (([] : List Char), cs)
    | _ => (([] : List Char), cs)
  match rest with
  | '/' :: '/' :: tail =>
    let netloc := tail.takeWhile (fun c => !endsNetloc c)
    let pathq := tail.dropWhile (fun c => !endsNetloc c)
    (scheme, netloc, pathq.takeWhile (fun c => c ≠ '?' ∧ c ≠ '#'))
  | other => (scheme, [], other.takeWhile (fun c => c ≠ '?' ∧ c ≠ '#'))

/-- `urlparse(url).scheme`. -/
def pyUrlScheme (s : String) : String := ⟨(splitUrlChars s.data).1⟩

/-- `urlparse(url).netloc`. -/
def pyUrlNetloc (s : String) : String := ⟨(splitUrlChars s.data).2.1⟩

/-- `urlparse(url).path`. -/
def pyUrlPath (s : String) : String := ⟨(splitUrlChars s.data).2.2⟩

/-- Split a char list on `/` (Python `path.split('/')`). -/
def splitSlash : List Char → List (List Char)
  | [] => [[]]
  | '/' :: rest => [] :: splitSlash rest
  | c :: rest =>
    match splitSlash rest with
    | [] => [[c]]
    | p :: ps => (c :: p) :: ps

/-- Join path segments with `/` (Python `'/'.join(...)`). -/
def joinSlash : List (List Char) → List Char
  | [] => []
  | [p] => p
  | p :: ps => p ++ '/' :: joinSlash ps

/-- The segment-resolution loop of `urljoin`: `..` pops, `.` is skipped,
and a trailing `.`/`..` re-appends an empty segment. -/
def resolveSegs (segments : List (List Char)) : List Char :=
  let resolved := segments.foldl
    (fun acc seg =>
      if seg = ['.', '.'] then acc.dropLast
      else if seg = ['.'] then acc
      else acc ++ [seg])
    ([] : List (List Char))
  let resolved :=
    match segments.getLast? with
    | some seg => if seg = ['.', '.'] ∨ seg = ['.'] then resolved ++ [[]] else resolved
    | none => resolved
  match joinSlash resolved with
  | [] => ['/']
  | p => p

/-- `urlunsplit` restricted to scheme/netloc/path. -/
def unsplitUrl (scheme netloc path : List Char) : List Char :=
  let url :=
    if netloc ≠ [] ∨ listStartsWith ['/', '/'] path then
      '/' :: '/' :: (netloc ++ path)
    else path
  if scheme ≠ [] then scheme ++ ':' :: url else url

/-- The schemes for which `urljoin` performs relative resolution
(the members of CPython's `uses_relative` that can reach this code:
the URL validator only admits http/https/ftp/ftps, and of these only
ftps is missing from `uses_relative`, so a join under ftps returns the
relative part unchanged, as CPython does). -/
def usesRelative : List (List Char) :=
  [[], ['h', 't', 't', 'p'], ['h', 't', 't', 'p', 's'], ['f', 't', 'p']]

/-- `urllib.parse.urljoin` restricted to scheme/netloc/path (the sources
never join URLs carrying queries or fragments).  Mirrors CPython: empty
base or empty url short-circuit; a url with a different (or
non-relative) scheme is returned unchanged; a url with its own netloc
wins; an empty path keeps the base path; an absolute path, or a merge
with the base path's directory, goes through dot-segment resolution. -/
def urljoin (base rel : String) : String :=
  if base = "" then rel
  else if rel = "" then base
  else
    let (bscheme, bnetloc, bpath) := splitUrlChars base.data
    let (rscheme0, rnetloc, rpath) := splitUrlChars rel.data
    let rscheme := if rscheme0 = [] then bscheme else rscheme0
    if rscheme ≠ bscheme ∨ rscheme ∉ usesRelative then rel
    else if rnetloc ≠ [] then ⟨unsplitUrl rscheme rnetloc rpath⟩
    else if rpath = [] then ⟨unsplitUrl rscheme bnetloc bpath⟩
    else if listStartsWith ['/'] rpath then
      ⟨unsplitUrl rscheme bnetloc (resolveSegs (splitSlash rpath))⟩
    else
      let baseParts0 := splitSlash bpath
      let baseParts :=
        if baseParts0.getLast? = some [] then baseParts0 else baseParts0.dropLast
      let segments := baseParts ++ splitSlash rpath
      let segments :=
        match segments with
        | [] => []
        | [s] => [s]
        | first :: more =>
          first :: ((more.dropLast.filter (fun s => s ≠ [])) ++
            (match more.getLast? with | some last => [last] | none => []))
      ⟨unsplitUrl rscheme bnetloc (resolveSegs segments)⟩

/-- `get_base_url` (`app/lib/utils.py` and `app/utils.py`, identical):
`f"{scheme}://{netloc}"` of the parsed URL. -/
def get_base_url (url : String) : String :=
  pyUrlScheme url ++ "://" ++ pyUrlNetloc url

/-! ## `is_url_valid` — the URL validator

`app/lib/utils.py` and `app/utils.py` share the regex
`^(?:http|ftp)s?://(?:www\.)?[a-zA-Z0-9-]+(?:\.[a-zA-Z0-9-]+)+(/[^ ]*)?$`
checked with `re.match`.  The matcher below is a direct deterministic
embedding: every quantified sub-pattern consumes characters disjoint
from what may follow it, except `(?:www\.)?`, which is kept as an
explicit disjunction (the regex backtracks over it).  Python's `$`
accepts the end of the string or a position just before a single final
newline; `matchTail` reproduces this. -/

/-- A character of the regex class `[a-zA-Z0-9-]`. -/
def isLabelChar (c : Char) : Bool :=
  c.isAlpha || c.isDigit || c = '-'

/-- A character the domain portion of the regex can consume. -/
def isDomChar (c : Char) : Bool :=
  isLabelChar c || c = '.'

/-- Strip the literal char list `p` from the front. -/
def stripPre : List Char → List Char → Option (List Char)
  | [], rest => some rest
  | _ :: _, [] => none
  | p :: ps, c :: cs => if c = p then stripPre ps cs else none

/-- After `http`/`ftp`: the optional `s` and the literal `://`.
Consuming the `s` when present is complete, since a skipped `s` can
never be followed by `://`. -/
def afterHttpFtp (cs : List Char) : Option (List Char) :=
  let cs' := match cs with
    | 's' :: rest => rest
    | other => other
  stripPre [':', '/', '/'] cs'

/-- `(?:http|ftp)s?://`: returns the remainder after the scheme part. -/
def stripScheme (cs : List Char) : Option (List Char) :=
  match stripPre ['h', 't', 't', 'p'] cs with
  | some rest => afterHttpFtp rest
  | none =>
    match stripPre ['f', 't', 'p'] cs with
    | some rest => afterHttpFtp rest
    | none => none

/-- Split a char list on `.` (used to validate the domain portion). -/
def splitDot : List Char → List (List Char)
  | [] => [[]]
  | c :: rest =>
    if c = '.' then [] :: splitDot rest
    else
      match splitDot rest with
      | [] => [[c]]
      | p :: ps => (c :: p) :: ps

/-- Join with `.` — the inverse of `splitDot`. -/
def joinDots : List (List Char) → List Char
  | [] => []
  | [p] => p
  | p :: ps => p ++ '.' :: joinDots ps

/-- `[a-zA-Z0-9-]+(?:\.[a-zA-Z0-9-]+)+` consumed a full run of domain
characters: at least two dot-separated labels, each non-empty. -/
def validDomain (cs : List Char) : Bool :=
  let parts := splitDot cs
  2 ≤ parts.length && parts.all (fun p => !p.isEmpty && p.all isLabelChar)

/-- `(/[^ ]*)?$` with Python `$` semantics: end of string, a single
final newline, or a `/`-path containing no space (the class `[^ ]`
admits every other character, newline included). -/
def matchTail : List Char → Bool
  | [] => true
  | ['\n'] => true
  | '/' :: rest => rest.all (fun c => c ≠ ' ')
  | _ => false

/-- Domain-then-tail: the regex consumes the maximal run of domain
characters (a shorter match would leave a domain character for the
tail, which no tail alternative accepts). -/
def matchHost (cs : List Char) : Bool :=
  validDomain (cs.takeWhile isDomChar) && matchTail (cs.dropWhile isDomChar)

/-- The full regex on a char list. -/
def matchUrlChars (cs : List Char) : Bool :=
  match stripScheme cs with
  | none => false
  | some rest =>
    matchHost rest ||
      (match stripPre ['w', 'w', 'w', '.'] rest with
       | some r => matchHost r
       | none => false)

/-- `is_url_valid` (`app/lib/utils.py` line 41 and `app/utils.py`
line 44, identical): `re.match` of the URL regex. -/
def is_url_valid (url : String) : Bool :=
  matchUrlChars url.data

/-! ### The spec-side URL shape

Built from the spec's words — `scheme://[www.]domain.tld[/path]` with
scheme in {http, https, ftp, ftps} — independently of the matcher. -/

/-- A non-empty label of domain characters. -/
def LabelOk (p : List Char) : Prop :=
  p ≠ [] ∧ ∀ c ∈ p, isLabelChar c = true

/-- `domain.tld`: at least two non-empty dot-separated labels. -/
def DomainOk (dom : List Char) : Prop :=
  ∃ parts, 2 ≤ parts.length ∧ (∀ p ∈ parts, LabelOk p) ∧ dom = joinDots parts

/-- `[/path]`: absent, or a `/` followed by space-free characters (a
well-formed URL contains no literal space). -/
def PathOk (tail : List Char) : Prop :=
  tail = [] ∨ ∃ p, tail = '/' :: p ∧ ∀ c ∈ p, c ≠ ' '

/-- The scheme literals of the spec's shape, as char lists. -/
def schemeLits : List (List Char) :=
  [['h', 't', 't', 'p'], ['h', 't', 't', 'p', 's'],
   ['f', 't', 'p'], ['f', 't', 'p', 's']]

/-- The spec's URL shape `scheme://[www.]domain.tld[/path]`. -/
def UrlShapeChars (cs : List Char) : Prop :=
  ∃ scheme w dom tail,
    scheme ∈ schemeLits ∧
    (w = [] ∨ w = ['w', 'w', 'w', '.']) ∧
    DomainOk dom ∧ PathOk tail ∧
    cs = scheme ++ [':', '/', '/'] ++ w ++ dom ++ tail

/-! ## robots.txt evaluation

The outcome of `requests.get(urljoin(base_url, "robots.txt"), ...)` is
abstracted as a `FetchOutcome`: either a response with a final status
code and body, or a `RequestException` carrying no response (connection
error / timeout).  `response.raise_for_status()` raises exactly when
the status is `>= 400`, and that exception is a `RequestException`
whose `.response` is the response. -/

/-- Result of an HTTP fetch as seen by the callers. -/
inductive FetchOutcome where
  | success (status : Nat) (body : String)
  | netError
deriving DecidableEq

/-- One user-agent block of the parsed ruleset:
`{"Allow": [...], "Disallow": [...]}`. -/
structure RuleBlock where
  allow : List String
  disallow : List String
deriving DecidableEq

/-- Python dict assignment `rules[k] = v`: replace in place, or append
a new key at the end. -/
def dictSet (m : List (String × RuleBlock)) (k : String) (v : RuleBlock) :
    List (String × RuleBlock) :=
  if m.any (fun e => e.1 = k) then
    m.map (fun e => if e.1 = k then (k, v) else e)
  else m ++ [(k, v)]

/-- Python dict lookup `rules.get(k)`. -/
def dictGet (m : List (String × RuleBlock)) (k : String) : Option RuleBlock :=
  match m.find? (fun e => e.1 = k) with
  | some e => some e.2
  | none => none

/-- Mutate the block stored at `k` (the callers guarantee `k` is
present: directives are only appended under an agent whose block was
just assigned). -/
def dictModify (m : List (String × RuleBlock)) (k : String)
    (f : RuleBlock → RuleBlock) : List (String × RuleBlock) :=
  m.map (fun e => if e.1 = k then (k, f e.2) else e)

/-- The loop body of `get_crawling_rules`, threading the rules dict and
the `current_user_agent` variable.  Note the Python truthiness test
`elif current_user_agent:`: an agent named `""` (a bare `User-agent:`
line) is falsy, so directives under it are dropped. -/
def rulesStep (st : List (String × RuleBlock) × Option String)
    (rawLine : String) : List (String × RuleBlock) × Option String :=
  let line := pyStrip rawLine
  let (rules, current) := st
  if pyStartsWith line "User-agent:" then
    let agent := pyStrip ⟨afterFirstColon line.data⟩
    (dictSet rules agent ⟨[], []⟩, some agent)
  else
    match current with
    | some agent =>
      if agent = "" then (rules, current)
      else if pyStartsWith line "Allow:" then
        (dictModify rules agent
          (fun b => ⟨b.allow ++ [pyStrip ⟨afterFirstColon line.data⟩], b.disallow⟩),
          current)
      else if pyStartsWith line "Disallow:" then
        (dictModify rules agent
          (fun b => ⟨b.allow, b.disallow ++ [pyStrip ⟨afterFirstColon line.data⟩]⟩),
          current)
      else (rules, current)
    | none => (rules, current)

/-- `get_crawling_rules` (`app/lib/utils.py` line 107 and
`app/utils.py` line 159, identical; `app/crawler.py` lines 116–131
inline the same loop): parse a robots.txt body into a user-agent →
rule-block mapping. -/
def get_crawling_rules (robotsContent : String) : List (String × RuleBlock) :=
  ((pySplitLines robotsContent).foldl rulesStep ([], none)).1

namespace AppUtils

/-- `is_crawling_allowed` (`app/utils.py` line 199).  After a
successful 200 fetch it evaluates the wildcard `"*"` block: disallowed
iff the URL starts with `urljoin(base_url, p)` for some `Disallow`
path `p` (empty paths included — `urljoin(base, "") = base`, which
every same-base URL starts with); `raise_for_status` failures and
connection errors are caught and allow. -/
def is_crawling_allowed (robots : FetchOutcome) (url : String) : Bool :=
  match robots with
  | .netError => true
  | .success status body =>
    if 400 ≤ status then true
    else if status = 200 then
      let baseUrl := get_base_url url
      let rules := get_crawling_rules body
      let matchedRules := (dictGet rules "*").getD ⟨[], []⟩
      if matchedRules.disallow.any
          (fun p => pyStartsWith url (urljoin baseUrl p)) then false
      else if matchedRules.allow.any
          (fun p => pyStartsWith url (urljoin baseUrl p)) then true
      else true
    else true

end AppUtils

namespace LibUtils

/-- `is_crawling_allowed` (`app/lib/utils.py` line 147).  The code
reads `rules.get("Disallow", [])` — but the keys of `rules` are user
agents, so this is a lookup of a user agent literally named
`"Disallow"`.  When absent the default `[]` is falsy and the function
allows; when present the value is the block dict
`{"Allow": [...], "Disallow": [...]}` (truthy: two keys), and the
`for disallow_path in disallow_paths` loop iterates over its keys
`"Allow"`, `"Disallow"`, testing each as a substring of the URL. -/
def is_crawling_allowed (robots : FetchOutcome) (url : String) : Bool :=
  match robots with
  | .netError => true
  | .success status body =>
    if 400 ≤ status then true
    else if status = 200 then
      let rules := get_crawling_rules body
      match dictGet rules "Disallow" with
      | none => true
      | some _ =>
        if pyIn "Allow" url then false
        else if pyIn "Disallow" url then false
        else true
    else true

end LibUtils

namespace Crawler

/-- `is_crawling_allowed` (`app/crawler.py` line 107).  The rules
evaluation skips empty `Disallow` paths; the exception handler reads
`error.response.status_code`, which allows only for statuses 404, 400
or 307 and returns `False` otherwise — and on a connection error
(`error.response is None`) the attribute access itself raises an
uncaught `AttributeError`, modelled as `Except.error`. -/
def is_crawling_allowed (robots : FetchOutcome) (url : String) :
    Except String Bool :=
  match robots with
  | .netError => .error "AttributeError: NoneType has no attribute status_code"
  | .success status body =>
    if 400 ≤ status then
      if status = 404 ∨ status = 400 ∨ status = 307 then .ok true else .ok false
    else if status = 200 then
      let baseUrl := get_base_url url
      let rules := get_crawling_rules body
      match dictGet rules "*" with
      | some matchedRules =>
        if matchedRules.disallow.any
            (fun p => p ≠ "" && pyStartsWith url (urljoin baseUrl p)) then
          .ok false
        else if matchedRules.allow.any
            (fun p => pyStartsWith url (urljoin baseUrl p)) then
          .ok true
        else .ok true
      | none => .ok true
    else .ok true

end Crawler

/-! ## HTML elements and `format_markdown`

Parsed HTML is modelled as a tree of elements and text nodes
(BeautifulSoup `Tag` / `NavigableString`).  `get_text()` concatenates
every descendant string in document order; `find_all(name)` collects
every descendant element with the given name, in pre-order. -/

/-- A parsed HTML node. -/
inductive Html where
  | text (s : String)
  | elem (tag : String) (attrs : List (String × String)) (children : List Html)

/-- `element.name`: the tag for elements.  (BeautifulSoup returns
`None` for text nodes; `format_markdown` only receives elements, and
`""` sends text nodes to the same fall-through branch `None` would.) -/
def Html.tagName : Html → String
  | .text _ => ""
  | .elem tag _ _ => tag

/-- `element.get(name)`: attribute lookup. -/
def Html.getAttr (h : Html) (name : String) : Option String :=
  match h with
  | .text _ => none
  | .elem _ attrs _ =>
    match attrs.find? (fun a => a.1 = name) with
    | some a => some a.2
    | none => none

mutual

/-- `element.get_text()`. -/
def getText : Html → String
  | .text s => s
  | .elem _ _ children => getTextList children

/-- `get_text` over a child list. -/
def getTextList : List Html → String
  | [] => ""
  | c :: rest => getText c ++ getTextList rest

end

mutual

/-- `element.get_text(strip=True)`: each string is stripped before
concatenation. -/
def getTextStrip : Html → String
  | .text s => pyStrip s
  | .elem _ _ children => getTextStripList children

/-- `get_text(strip=True)` over a child list. -/
def getTextStripList : List Html → String
  | [] => ""
  | c :: rest => getTextStrip c ++ getTextStripList rest

end

mutual

/-- `element.find_all(tags)` for a list of tag names: all descendant
elements whose tag is in `tags`, in document (pre-)order. -/
def findAll (tags : List String) : Html → List Html
  | .text _ => []
  | .elem _ _ children => findAllList tags children

/-- `find_all` over a child list. -/
def findAllList (tags : List String) : List Html → List Html
  | [] => []
  | c :: rest =>
    (match c with
     | .elem tag _ _ =>
       (if tag ∈ tags then [c] else []) ++ findAll tags c
     | .text _ => []) ++ findAllList tags rest

end

namespace LibUtils

/-- `format_markdown_headings` (`app/lib/utils.py` line 230). -/
def format_markdown_headings (elementType elementText : String) : String :=
  if elementType = "h1" then "# " ++ elementText
  else if elementType = "h2" then "## " ++ elementText
  else if elementType = "h3" then "### " ++ elementText
  else if elementType = "h4" then "#### " ++ elementText
  else if elementType = "h5" then "##### " ++ elementText
  else if elementType = "h6" then "###### " ++ elementText
  else ""

/-- `format_markdown_lists` (`app/lib/utils.py` line 249).  The
numbering for `ol` uses the `enumerate` index over all `li` elements,
so items whose stripped text is empty are dropped but still consume
their number. -/
def format_markdown_lists (element : Html) (elementType : String) : String :=
  if elementType = "ul" ∨ elementType = "ol" then
    let liElements := findAll ["li"] element
    let listMarkdown := (liElements.enum.filterMap
      (fun (i, li) =>
        let liText := pyStrip (getText li)
        let marker := if elementType = "ol" then toString (i + 1) ++ "." else "-"
        if liText ≠ "" then some (marker ++ " " ++ liText) else none))
    String.intercalate "\n" listMarkdown
  else ""

/-- `format_markdown_tables` (`app/lib/utils.py` line 271): the first
`tr` becomes a header row followed by a `---` separator row. -/
def format_markdown_tables (element : Html) (elementType : String) : String :=
  if elementType = "table" then
    let rows := findAll ["tr"] element
    let tableMarkdown := (rows.enum.map
      (fun (i, row) =>
        let cells := findAll ["th", "td"] row
        let cellTexts := cells.map getTextStrip
        let rowLine := "| " ++ String.intercalate " | " cellTexts ++ " |"
        if i = 0 then
          [rowLine,
           "| " ++ String.intercalate " | " (cellTexts.map (fun _ => "---")) ++ " |"]
        else [rowLine])).flatten
    String.intercalate "\n" tableMarkdown
  else ""

/-- `format_markdown` (`app/lib/utils.py` line 295): dispatch on
`element.name`; anchors resolve `element.get("href")` against
`get_base_url(url)` (and `urljoin(base, None)` is `base`). -/
def format_markdown (element : Html) (url : String) : String :=
  let elementText := pyStrip (getText element)
  let elementType := element.tagName
  let markdown :=
    if elementType = "table" then format_markdown_tables element elementType
    else if elementType ∈ ["h1", "h2", "h3", "h4", "h5", "h6"] then
      format_markdown_headings elementType elementText
    else if elementType ∈ ["ol", "ul"] then
      format_markdown_lists element elementType
    else if elementType = "a" then
      let baseUrl := get_base_url url
      let resolvedUrl :=
        match element.getAttr "href" with
        | none => baseUrl
        | some href => urljoin baseUrl href
      "[" ++ elementText ++ "](" ++ resolvedUrl ++ ")"
    else if elementType ∈ ["p", "span", "div", "sup", "sub"] then elementText
    else if elementType ∈ ["strong", "b"] then "**" ++ elementText ++ "**"
    else if elementType ∈ ["em", "i"] then "*" ++ elementText ++ "*"
    else if elementType = "blockquote" then "> " ++ elementText
    else if elementType ∈ ["del", "s"] then "~~" ++ elementText ++ "~~"
    else if elementType = "pre" then "```\n" ++ elementText ++ "\n```"
    else if elementType = "code" then "`" ++ elementText ++ "`"
    else ""
  pyStrip markdown

/-- The tag names `format_markdown` recognises; any other element is
formatted as the empty string. -/
def supportedTags : List String :=
  ["table", "h1", "h2", "h3", "h4", "h5", "h6", "ol", "ul", "a",
   "p", "span", "div", "sup", "sub", "strong", "b", "em", "i",
   "blockquote", "del", "s", "pre", "code"]

end LibUtils

namespace AppUtils

/-- `format_markdown` (`app/utils.py` line 61): takes the element and
its tag name; anchors emit `element.get("href", "#")` verbatim, with
no resolution against the page URL; list items are not stripped. -/
def format_markdown (element : Html) (elementType : String) : String :=
  let elementText := getText element
  let markdown :=
    if elementType = "h1" then "# " ++ elementText
    else if elementType = "h2" then "## " ++ elementText
    else if elementType = "h3" then "### " ++ elementText
    else if elementType = "h4" then "#### " ++ elementText
    else if elementType = "h5" then "##### " ++ elementText
    else if elementType = "h6" then "###### " ++ elementText
    else if elementType = "p" then elementText
    else if elementType = "a" then
      let href := (element.getAttr "href").getD "#"
      "[" ++ elementText ++ "](" ++ href ++ ")"
    else if elementType = "ul" then
      String.intercalate "\n"
        ((findAll ["li"] element).map (fun li => "- " ++ getText li))
    else if elementType = "ol" then
      String.intercalate "\n"
        ((findAll ["li"] element).enum.map
          (fun (i, li) => toString (i + 1) ++ ". " ++ getText li))
    else ""
  pyStrip markdown

end AppUtils

/-! ## Link extraction

`get_page_urls` (`app/crawl.py` line 166 and `app/api/crawl.py`
line 216; `retrieve_page_urls` in `app/crawler.py` line 78 is the same
algorithm): the page's anchors are abstracted as the list of their
`href` attribute values (`element.get("href")`, hence `Option`). -/

/-- The anchor-filtering loop: skip missing or empty hrefs, hrefs
containing `#`, and hrefs starting `./` or `../`; resolve the rest
against the page URL and keep those on the same netloc. -/
def get_page_urls (url : String) (anchors : List (Option String)) : List String :=
  url :: anchors.foldr
    (fun linkUrl acc =>
      match linkUrl with
      | none => acc
      | some h =>
        if h = "" then acc
        else if pyIn "#" h || pyStartsWith h "./" || pyStartsWith h "../" then acc
        else
          let resolvedUrl := urljoin url h
          if pyUrlNetloc resolvedUrl = pyUrlNetloc url then resolvedUrl :: acc
          else acc)
    []

/-! ## The crawl engines

Network interaction is abstracted by `CrawlEnv`:
 * `parsePage u` — the outcome of `get_parsed_page_content(u)` (fetch +
   parse; `Except.error` models the `HTTPException` it raises);
 * `pageUrls u`  — the outcome of `get_page_urls(u)` (a second fetch of
   the page);
 * `robots u`    — the response to the robots.txt fetch that
   `is_crawling_allowed(u)` performs.
Each call is logged as a `CrawlEvent` so that the order of network
actions is observable.  `time.sleep` and `datetime.now` are not
modelled (the `last_crawled` metadata field is dropped). -/

/-- A page as returned by `get_parsed_page_content`. -/
structure Page where
  title : String
  content : String
deriving DecidableEq

/-- The crawl's environment: every network-dependent callee. -/
structure CrawlEnv where
  parsePage : String → Except String Page
  pageUrls : String → Except String (List String)
  robots : String → FetchOutcome

/-- One observable network action of a crawl. -/
inductive CrawlEvent where
  | fetchPage (url : String)
  | robotsFetch (url : String)
  | fetchLinks (url : String)
deriving DecidableEq

/-- A crawl error: an `HTTPException` bubbling up from fetch/parse, or
the 403 raised when robots disallow. -/
inductive CrawlErr where
  | http (msg : String)
  | disallowed (url : String)
deriving DecidableEq

instance {ε α : Type} [DecidableEq ε] [DecidableEq α] :
    DecidableEq (Except ε α) := fun x y =>
  match x, y with
  | .ok a, .ok b =>
    if h : a = b then .isTrue (by rw [h]) else .isFalse (by simp [h])
  | .error a, .error b =>
    if h : a = b then .isTrue (by rw [h]) else .isFalse (by simp [h])
  | .ok _, .error _ => .isFalse (by simp)
  | .error _, .ok _ => .isFalse (by simp)

namespace Crawl

/-- One entry of the result list of
`Crawl.get_parsed_website_content`: the page content together with its
metadata dict (minus `last_crawled`). -/
structure Record where
  url : String
  title : String
  content : String
  wordCount : Nat
  depth : Nat
deriving DecidableEq

/-- The observable outcome of a (sub-)crawl: the network events in
order, the visited set (most recent first — Python mutates one shared
set), and the returned records or the propagated exception. -/
structure Outcome where
  trace : List CrawlEvent
  visited : List String
  result : Except CrawlErr (List Record)
deriving DecidableEq

/-- The `for link in get_page_urls(url)` loop of
`get_parsed_website_content` (`app/crawl.py` line 157): each link not
yet visited and passing `is_url_valid` is crawled via `step` (the
recursive call at `depth - 1`); results are appended, the visited set
threads through, and an exception aborts the loop. -/
def crawlChildren (step : String → List String → Outcome) :
    List String → List String → List CrawlEvent → List Record → Outcome
  | [], visited, trace, acc => ⟨trace, visited, .ok acc⟩
  | link :: rest, visited, trace, acc =>
    if link ∉ visited ∧ is_url_valid link then
      let r := step link visited
      match r.result with
      | .error e => ⟨trace ++ r.trace, r.visited, .error e⟩
      | .ok recs => crawlChildren step rest r.visited (trace ++ r.trace) (acc ++ recs)
    else crawlChildren step rest visited trace acc

/-- `get_parsed_website_content` (`app/crawl.py` line 113), the
recursive crawl.  Faithful control flow: at depth 0 or on a visited
URL return `[]`; otherwise add the URL to the visited set, fetch and
parse the page (`get_parsed_page_content`), build the record, *then*
check `is_crawling_allowed` (raising 403 if it denies), fetch the
page's links, and recurse over them at `depth - 1`. -/
def get_parsed_website_content (env : CrawlEnv) :
    Nat → String → List String → Outcome
  | 0, _, visited => ⟨[], visited, .ok []⟩
  | depth + 1, url, visited =>
    if url ∈ visited then ⟨[], visited, .ok []⟩
    else
      let visited1 := url :: visited
      match env.parsePage url with
      | .error e => ⟨[.fetchPage url], visited1, .error (.http e)⟩
      | .ok page =>
        let record : Record :=
          ⟨url, page.title, page.content, pyWordCount page.content, depth + 1⟩
        if AppUtils.is_crawling_allowed (env.robots url) url then
          match env.pageUrls url with
          | .error e =>
            ⟨[.fetchPage url, .robotsFetch url, .fetchLinks url], visited1,
              .error (.http e)⟩
          | .ok links =>
            crawlChildren (get_parsed_website_content env depth) links visited1
              [.fetchPage url, .robotsFetch url, .fetchLinks url] [record]
        else
          ⟨[.fetchPage url, .robotsFetch url], visited1, .error (.disallowed url)⟩

end Crawl

namespace ApiCrawl

/-- The observable outcome of the iterative crawl: events in order and
the returned list of page contents (`crawled_data` collects the
strings `get_parsed_page_content` returns in `app/api/crawl.py`), or
the propagated exception. -/
structure Outcome where
  trace : List CrawlEvent
  result : Except CrawlErr (List String)
deriving DecidableEq

/-- State threaded through one frontier round: visited set, the next
round's frontier (`new_urls_to_crawl`, insertion-ordered), and the
collected contents. -/
structure RoundState where
  visited : List String
  nextFrontier : List String
  data : List String
deriving DecidableEq

/-- The link filter of `get_parsed_website_content`
(`app/api/crawl.py` lines 199–209): same path prefix as the root, not
visited, not already staged, `is_url_valid`, and no omit keyword as a
substring. -/
def linkAdmissible (basePath : String) (omitUrlKeywords : List String)
    (visited staged : List String) (link : String) : Bool :=
  pyStartsWith (pyUrlPath link) basePath &&
  link ∉ visited && link ∉ staged && is_url_valid link &&
  omitUrlKeywords.all (fun keyword => !pyIn keyword link)

/-- The `for current_url in urls_to_crawl` loop of one round: fetch
and parse each unvisited URL (exceptions propagate and abort the whole
crawl), mark it visited, append its content, and stage its admissible
links.  (The Python frontier is a `set`; it is modelled as an
insertion-ordered list, which fixes one of the unspecified iteration
orders.) -/
def processFrontier (env : CrawlEnv) (basePath : String)
    (omitUrlKeywords : List String) :
    List String → RoundState → List CrawlEvent →
    List CrawlEvent × Except CrawlErr RoundState
  | [], st, trace => (trace, .ok st)
  | currentUrl :: rest, st, trace =>
    if currentUrl ∈ st.visited then
      processFrontier env basePath omitUrlKeywords rest st trace
    else
      match env.parsePage currentUrl with
      | .error e => (trace ++ [.fetchPage currentUrl], .error (.http e))
      | .ok page =>
        let visited := currentUrl :: st.visited
        let data := st.data ++ [page.content]
        match env.pageUrls currentUrl with
        | .error e =>
          (trace ++ [.fetchPage currentUrl, .fetchLinks currentUrl],
            .error (.http e))
        | .ok links =>
          let staged := links.foldl
            (fun staged link =>
              if linkAdmissible basePath omitUrlKeywords visited staged link then
                staged ++ [link]
              else staged)
            st.nextFrontier
          processFrontier env basePath omitUrlKeywords rest
            ⟨visited, staged, data⟩
            (trace ++ [.fetchPage currentUrl, .fetchLinks currentUrl])

/-- The `for _ in range(max_depth + 1)` round loop. -/
def crawlRounds (env : CrawlEnv) (basePath : String)
    (omitUrlKeywords : List String) :
    Nat → List String → List String → List String → List CrawlEvent → Outcome
  | 0, _, _, data, trace => ⟨trace, .ok data⟩
  | rounds + 1, frontier, visited, data, trace =>
    match processFrontier env basePath omitUrlKeywords frontier
        ⟨visited, [], data⟩ trace with
    | (trace, .error e) => ⟨trace, .error e⟩
    | (trace, .ok st) =>
      crawlRounds env basePath omitUrlKeywords rounds st.nextFrontier
        st.visited st.data trace

/-- `get_parsed_website_content` (`app/api/crawl.py` line 162), the
iterative crawl: `max_depth + 1` rounds over a frontier seeded with
the root URL, scoped to `urlparse(url).path.rstrip("/")`.  No robots
check occurs anywhere in this variant. -/
def get_parsed_website_content (env : CrawlEnv) (url : String)
    (maxDepth : Nat) (omitUrlKeywords : List String) : Outcome :=
  crawlRounds env (pyRstripSlash (pyUrlPath url)) omitUrlKeywords
    (maxDepth + 1) [url] [] [] []

end ApiCrawl

/-! ## Concrete sample data

Small concrete environments and elements used to instantiate the
theorems below. -/

/-- Root URL of the cyclic sample site. -/
def cycRoot : String := "https://s.com/a"

/-- Second URL of the cyclic sample site. -/
def cycOther : String := "https://s.com/b"

/-- A two-page site whose pages link to each other (and to themselves):
a cyclic link graph with every fetch succeeding and robots unreachable
(hence allowing). -/
def cycEnv : CrawlEnv where
  parsePage _ := .ok ⟨"T", "w"⟩
  pageUrls u := .ok (if u = cycRoot then [cycRoot, cycOther] else [cycOther, cycRoot])
  robots _ := .netError

/-- An environment whose robots.txt disallows everything under the
root, while pages themselves fetch fine. -/
def disEnv : CrawlEnv where
  parsePage _ := .ok ⟨"T", "w"⟩
  pageUrls _ := .ok []
  robots _ := .success 200 "User-agent: *\nDisallow: /"

/-- Root URL of the failing sample site. -/
def failRoot : String := "https://s.com/"

/-- The URL whose fetch fails in `failEnv`. -/
def failBad : String := "https://s.com/bad"

/-- A site whose root page parses fine and links to `failBad`, whose
fetch raises. -/
def failEnv : CrawlEnv where
  parsePage u := if u = failBad then .error "boom" else .ok ⟨"T", "w"⟩
  pageUrls u := .ok (if u = failRoot then [failRoot, failBad] else [])
  robots _ := .netError

/-- `<h2>Title</h2>`. -/
def sampleH2 : Html := .elem "h2" [] [.text "Title"]

/-- `<ol><li>a</li><li>b</li></ol>`. -/
def sampleOl : Html :=
  .elem "ol" [] [.elem "li" [] [.text "a"], .elem "li" [] [.text "b"]]

/-- `<a href="/x">t</a>`. -/
def sampleAnchor : Html := .elem "a" [("href", "/x")] [.text "t"]

/-- `<a>t</a>` — an anchor with no `href` attribute. -/
def sampleAnchorNoHref : Html := .elem "a" [] [.text "t"]

/-- The robots.txt body of the claims' running example. -/
def sampleRobots : String := "User-agent: *\nDisallow: /private"

/-- A site with a single outbound link from the root to `failBad`,
whose fetch raises. -/
def failEnv2 : CrawlEnv where
  parsePage u := if u = failBad then .error "boom" else .ok ⟨"T", "w"⟩
  pageUrls u := .ok (if u = failRoot then [failBad] else [])
  robots _ := .netError

/-- The URLs of the pages a crawl actually fetched, in order. -/
def fetchedUrls (trace : List CrawlEvent) : List String :=
  trace.filterMap (fun e =>
    match e with
    | .fetchPage u => some u
    | _ => none)

/-- The invariant a crawl step must satisfy for the visited-set
discipline: starting from a duplicate-free visited set, the step
returns a duplicate-free visited superset, and any records it returns
have pairwise-distinct URLs drawn from the new visited set and not
from the old one. -/
def CrawlStepSpec (step : String → List String → Crawl.Outcome) : Prop :=
  ∀ u vis, vis.Nodup →
    (step u vis).visited.Nodup ∧
    vis ⊆ (step u vis).visited ∧
    ∀ rs, (step u vis).result = .ok rs →
      (rs.map Crawl.Record.url).Nodup ∧
      ∀ r ∈ rs, r.url ∈ (step u vis).visited ∧ r.url ∉ vis

/-! ## Claim theorems -/

/-- Characterisation of the `app/utils.py` robots evaluation on a 200
response: the result is the negation of the wildcard `Disallow`
prefix test. -/
theorem appAllowed200 (body url : String) :
    AppUtils.is_crawling_allowed (.success 200 body) url =
      !(((dictGet (get_crawling_rules body) "*").getD ⟨[], []⟩).disallow.any
        (fun p => pyStartsWith url (urljoin (get_base_url url) p))) := by
  simp only [AppUtils.is_crawling_allowed]
  rw [if_pos trivial]
  by_cases h : (((dictGet (get_crawling_rules body) "*").getD ⟨[], []⟩).disallow.any
      (fun p => pyStartsWith url (urljoin (get_base_url url) p))) = true
  · simp [h]
  · simp [h]

/-- C7: the `app/lib/utils.py` `format_markdown` (the variant taking
the page URL) yields `"## Title"` for `<h2>Title</h2>`,
`"1. a\n2. b"` for `<ol><li>a</li><li>b</li></ol>`, and
`"[t](https://h/x)"` for `<a href="/x">t</a>` on the page
`https://h/`, resolving the relative href against the page's base URL;
the `app/utils.py` variant agrees on headings and lists but emits the
href verbatim. -/
theorem c7_format_markdown_outputs :
    LibUtils.format_markdown sampleH2 "https://h/" = "## Title" ∧
    LibUtils.format_markdown sampleOl "https://h/" = "1. a\n2. b" ∧
    LibUtils.format_markdown sampleAnchor "https://h/" = "[t](https://h/x)" ∧
    AppUtils.format_markdown sampleH2 "h2" = "## Title" ∧
    AppUtils.format_markdown sampleOl "ol" = "1. a\n2. b" ∧
    AppUtils.format_markdown sampleAnchor "a" = "[t](/x)" := by
  decide

/-- C7 counterexample: `format_markdown` in `app/utils.py` — one of
the two implementations the claim describes — applied to
`<a href="/x">t</a>` yields `"[t](/x)"`, not the claimed
`"[t](https://h/x)"`: this variant never resolves the href against the
page's base URL (it does not even receive the page URL). -/
theorem c7_counterexample :
    AppUtils.format_markdown sampleAnchor "a" = "[t](/x)" ∧
    AppUtils.format_markdown sampleAnchor "a" ≠ "[t](https://h/x)" := by
  decide

/-- C2: in `app/crawl.py` the target page is fetched *before* the
robots.txt permission check — with robots denying every path under
`https://s.com/`, the crawl of `https://s.com/a` first performs the
page fetch and only then the robots fetch, aborting afterwards; and
the iterative variant in `app/api/crawl.py` performs no robots check
at all (its trace holds only page and link fetches). -/
theorem c2_fetch_precedes_robots_check :
    (Crawl.get_parsed_website_content disEnv 2 cycRoot []).trace =
      [.fetchPage cycRoot, .robotsFetch cycRoot] ∧
    (Crawl.get_parsed_website_content disEnv 2 cycRoot []).result =
      .error (.disallowed cycRoot) ∧
    AppUtils.is_crawling_allowed (disEnv.robots cycRoot) cycRoot = false ∧
    (ApiCrawl.get_parsed_website_content failEnv2 failRoot 0 []).trace =
      [.fetchPage failRoot, .fetchLinks failRoot] := by
  decide

/-- C1 counterexample: with the claim's own robots.txt
(`User-agent: *` / `Disallow: /private`) fetched successfully, the
`app/lib/utils.py` `is_crawling_allowed` returns `true` for
`https://host/private/x` — the claim says `false`.  (That variant
looks up `rules.get("Disallow")`, a user-agent lookup which misses,
so it allows everything.) -/
theorem c1_counterexample :
    LibUtils.is_crawling_allowed (.success 200 sampleRobots)
      "https://host/private/x" = true := by
  decide

/-- C1 (amended): for the `app/utils.py` variant, on a successfully
fetched (HTTP 200) robots.txt the URL is disallowed *exactly* when it
starts with `urljoin(base_url, p)` for some path `p` in the wildcard
block's `Disallow` list — with no skipping of empty paths (an empty
`Disallow:` path resolves to the base URL itself, which every
same-base URL starts with).  The claim's two examples hold for this
variant. -/
theorem c1_wildcard_disallow :
    (∀ body url,
      AppUtils.is_crawling_allowed (.success 200 body) url = false ↔
        ∃ p ∈ ((dictGet (get_crawling_rules body) "*").getD ⟨[], []⟩).disallow,
          pyStartsWith url (urljoin (get_base_url url) p) = true) ∧
    AppUtils.is_crawling_allowed (.success 200 sampleRobots)
      "https://host/private/x" = false ∧
    AppUtils.is_crawling_allowed (.success 200 sampleRobots)
      "https://host/public" = true ∧
    AppUtils.is_crawling_allowed (.success 200 "User-agent: *\nDisallow:")
      "https://host/public" = false := by
  refine ⟨?_, by decide, by decide, by decide⟩
  intro body url
  rw [appAllowed200 body url]
  by_cases h : (((dictGet (get_crawling_rules body) "*").getD ⟨[], []⟩).disallow.any
      (fun p => pyStartsWith url (urljoin (get_base_url url) p))) = true
  · rw [h, Bool.not_true]
    exact iff_of_true rfl (List.any_eq_true.mp h)
  · rw [Bool.not_eq_true] at h
    rw [h, Bool.not_false]
    refine iff_of_false (by simp) (fun hex => ?_)
    have hany := List.any_eq_true.mpr hex
    rw [h] at hany
    exact Bool.false_ne_true hany

/-- C3 counterexample: the `app/crawler.py` `is_crawling_allowed`
returns `False` when the robots.txt fetch comes back with status 500 —
a fetch failure on which the claim requires `true`.  (Its exception
handler only allows statuses 404, 400 and 307.) -/
theorem c3_counterexample :
    Crawler.is_crawling_allowed (.success 500 "") "https://host/x" =
      .ok false := by
  decide

/-- C3 (amended): the `app/lib/utils.py` and `app/utils.py` variants
default-allow on every robots fetch failure (connection error or any
`raise_for_status` status ≥ 400); the `app/crawler.py` variant
default-allows only for failure statuses 404, 400 and 307, returns
`False` for any other failure status, and on a connection error with
no response raises an uncaught `AttributeError` from
`error.response.status_code`. -/
theorem c3_fail_open (url : String) (status : Nat) (body : String) :
    AppUtils.is_crawling_allowed .netError url = true ∧
    LibUtils.is_crawling_allowed .netError url = true ∧
    (400 ≤ status → AppUtils.is_crawling_allowed (.success status body) url = true) ∧
    (400 ≤ status → LibUtils.is_crawling_allowed (.success status body) url = true) ∧
    Crawler.is_crawling_allowed .netError url =
      .error "AttributeError: NoneType has no attribute status_code" ∧
    (400 ≤ status → (status = 404 ∨ status = 400 ∨ status = 307) →
      Crawler.is_crawling_allowed (.success status body) url = .ok true) ∧
    (400 ≤ status → ¬(status = 404 ∨ status = 400 ∨ status = 307) →
      Crawler.is_crawling_allowed (.success status body) url = .ok false) := by
  refine ⟨rfl, rfl, ?_, ?_, rfl, ?_, ?_⟩
  · intro h
    simp only [AppUtils.is_crawling_allowed]
    rw [if_pos h]
  · intro h
    simp only [LibUtils.is_crawling_allowed]
    rw [if_pos h]
  · intro h hs
    simp only [Crawler.is_crawling_allowed]
    rw [if_pos h, if_pos hs]
  · intro h hs
    simp only [Crawler.is_crawling_allowed]
    rw [if_pos h, if_neg hs]

/-- C3 witness: the amended statement instantiated at a robots fetch
with status 500 (fails closed in `app/crawler.py`) and at status 404
(fail-open everywhere). -/
theorem c3_fail_open_witness :
    AppUtils.is_crawling_allowed (.success 500 "") "https://host/x" = true ∧
    LibUtils.is_crawling_allowed (.success 500 "") "https://host/x" = true ∧
    Crawler.is_crawling_allowed (.success 500 "") "https://host/x" = .ok false ∧
    Crawler.is_crawling_allowed (.success 404 "") "https://host/x" = .ok true ∧
    AppUtils.is_crawling_allowed .netError "https://host/x" = true := by
  refine ⟨?_, ?_, ?_, ?_, ?_⟩
  · exact (c3_fail_open "https://host/x" 500 "").2.2.1 (by omega)
  · exact (c3_fail_open "https://host/x" 500 "").2.2.2.1 (by omega)
  · exact (c3_fail_open "https://host/x" 500 "").2.2.2.2.2.2 (by omega) (by omega)
  · exact (c3_fail_open "https://host/x" 404 "").2.2.2.2.2.1 (by omega) (by simp)
  · exact (c3_fail_open "https://host/x" 500 "").1

/-- C5 counterexample: the recursive crawl of `app/crawl.py` invoked
with depth 0 returns the empty record list and performs no fetch at
all — not the one root `PageRecord` the claim requires. -/
theorem c5_counterexample :
    (Crawl.get_parsed_website_content cycEnv 0 cycRoot []).result =
      .ok ([] : List Crawl.Record) ∧
    (Crawl.get_parsed_website_content cycEnv 0 cycRoot []).trace = [] := by
  decide

/-- C5 (amended): the iterative crawl of `app/api/crawl.py` with
`max_depth = 0` runs one round: whenever the root's fetch+parse and
link listing succeed it visits exactly the root and returns exactly
one record (the root's content), every network fetch being of the
root; the recursive variant of `app/crawl.py` at depth 0 instead
fetches nothing and returns no records. -/
theorem c5_depth_zero (env : CrawlEnv) (url : String)
    (omitUrlKeywords : List String) (page : Page) (links : List String)
    (hp : env.parsePage url = .ok page)
    (hl : env.pageUrls url = .ok links) :
    ApiCrawl.get_parsed_website_content env url 0 omitUrlKeywords =
      ⟨[.fetchPage url, .fetchLinks url], .ok [page.content]⟩ ∧
    Crawl.get_parsed_website_content env 0 url [] = ⟨[], [], .ok []⟩ := by
  constructor
  · simp only [ApiCrawl.get_parsed_website_content, ApiCrawl.crawlRounds,
      ApiCrawl.processFrontier, hp, hl]
    simp
  · rfl

/-- C5 witness: the amended statement instantiated on the concrete
environment `failEnv2`, whose root fetch succeeds. -/
theorem c5_depth_zero_witness :
    failEnv2.parsePage failRoot = .ok ⟨"T", "w"⟩ ∧
    failEnv2.pageUrls failRoot = .ok [failBad] ∧
    (ApiCrawl.get_parsed_website_content failEnv2 failRoot 0 [] =
      ⟨[.fetchPage failRoot, .fetchLinks failRoot], .ok ["w"]⟩ ∧
    Crawl.get_parsed_website_content failEnv2 0 failRoot [] = ⟨[], [], .ok []⟩) :=
  ⟨by decide, by decide,
    c5_depth_zero failEnv2 failRoot [] ⟨"T", "w"⟩ [failBad] (by decide) (by decide)⟩

/-- C8: for every page URL and every list of anchor hrefs found on the
page, the link extractor's result has the input URL as its first
element, and every element (the input URL itself, and each resolved
href that survives the filter) has the same netloc as the input URL. -/
theorem c8_link_extractor (url : String) (anchors : List (Option String)) :
    (get_page_urls url anchors).head? = some url ∧
    ∀ v ∈ get_page_urls url anchors, pyUrlNetloc v = pyUrlNetloc url := by
  constructor
  · rfl
  · intro v hv
    unfold get_page_urls at hv
    rw [List.mem_cons] at hv
    rcases hv with rfl | hv
    · rfl
    · induction anchors with
      | nil => simp at hv
      | cons a rest ih =>
        simp only [List.foldr_cons] at hv
        cases a with
        | none => exact ih hv
        | some h =>
          dsimp only at hv
          by_cases h0 : h = ""
          · rw [if_pos h0] at hv
            exact ih hv
          · rw [if_neg h0] at hv
            by_cases h1 : (pyIn "#" h || pyStartsWith h "./" || pyStartsWith h "../") = true
            · rw [if_pos h1] at hv
              exact ih hv
            · rw [if_neg h1] at hv
              by_cases h2 : pyUrlNetloc (urljoin url h) = pyUrlNetloc url
              · rw [if_pos h2] at hv
                rcases List.mem_cons.mp hv with rfl | hv
                · exact h2
                · exact ih hv
              · rw [if_neg h2] at hv
                exact ih hv

/-- C10: the `app/lib/utils.py` `format_markdown` is total: an element
whose tag is outside the supported set yields `""`, and an `<a>`
element with no `href` attribute yields a well-formed link whose
target degrades to the page's base URL (`urljoin(base, None)` returns
the base), never an exception. -/
theorem c10_format_markdown_total (url tag : String)
    (attrs : List (String × String)) (children : List Html) :
    (tag ∉ LibUtils.supportedTags →
      LibUtils.format_markdown (.elem tag attrs children) url = "") ∧
    (attrs.find? (fun a => a.1 = "href") = none →
      LibUtils.format_markdown (.elem "a" attrs children) url =
        pyStrip ("[" ++ pyStrip (getTextList children) ++ "](" ++
          get_base_url url ++ ")")) := by
  constructor
  · intro h
    have h01 : tag ≠ "table" := fun hc => h (by rw [hc]; decide)
    have h02 : tag ∉ ["h1", "h2", "h3", "h4", "h5", "h6"] := by
      intro hc
      apply h
      simp only [List.mem_cons, List.not_mem_nil, or_false] at hc
      rcases hc with rfl | rfl | rfl | rfl | rfl | rfl <;> decide
    have h03 : tag ∉ ["ol", "ul"] := by
      intro hc
      apply h
      simp only [List.mem_cons, List.not_mem_nil, or_false] at hc
      rcases hc with rfl | rfl <;> decide
    have h04 : tag ≠ "a" := fun hc => h (by rw [hc]; decide)
    have h05 : tag ∉ ["p", "span", "div", "sup", "sub"] := by
      intro hc
      apply h
      simp only [List.mem_cons, List.not_mem_nil, or_false] at hc
      rcases hc with rfl | rfl | rfl | rfl | rfl <;> decide
    have h06 : tag ∉ ["strong", "b"] := by
      intro hc
      apply h
      simp only [List.mem_cons, List.not_mem_nil, or_false] at hc
      rcases hc with rfl | rfl <;> decide
    have h07 : tag ∉ ["em", "i"] := by
      intro hc
      apply h
      simp only [List.mem_cons, List.not_mem_nil, or_false] at hc
      rcases hc with rfl | rfl <;> decide
    have h08 : tag ≠ "blockquote" := fun hc => h (by rw [hc]; decide)
    have h09 : tag ∉ ["del", "s"] := by
      intro hc
      apply h
      simp only [List.mem_cons, List.not_mem_nil, or_false] at hc
      rcases hc with rfl | rfl <;> decide
    have h10 : tag ≠ "pre" := fun hc => h (by rw [hc]; decide)
    have h11 : tag ≠ "code" := fun hc => h (by rw [hc]; decide)
    simp only [LibUtils.format_markdown, Html.tagName]
    rw [if_neg h01, if_neg h02, if_neg h03, if_neg h04, if_neg h05,
      if_neg h06, if_neg h07, if_neg h08, if_neg h09, if_neg h10, if_neg h11]
    decide
  · intro h
    simp only [LibUtils.format_markdown, Html.tagName, Html.getAttr, h]
    rw [if_pos trivial]
    rfl

/-- C10 witness: the totality statement instantiated at a `<video>`
element (unsupported tag) and at `<a>t</a>` (anchor with no `href`) on
the page `https://h/p`; the anchor case evaluates to `"[t](https://h)"`. -/
theorem c10_format_markdown_total_witness :
    ("video" ∉ LibUtils.supportedTags ∧
      LibUtils.format_markdown (.elem "video" [] [.text "zz"]) "https://h/p" = "") ∧
    (([] : List (String × String)).find? (fun a => a.1 = "href") = none ∧
      LibUtils.format_markdown sampleAnchorNoHref "https://h/p" = "[t](https://h)") := by
  constructor
  · exact ⟨by decide,
      (c10_format_markdown_total "https://h/p" "video" [] [.text "zz"]).1 (by decide)⟩
  · refine ⟨by decide, ?_⟩
    have := (c10_format_markdown_total "https://h/p" "a" [] [.text "t"]).2 (by decide)
    rw [show sampleAnchorNoHref = .elem "a" [] [.text "t"] from rfl, this]
    decide

/-- C6 counterexample: in the iterative (aggregate/breadth) crawl of
`app/api/crawl.py`, a fetch failure on one linked page aborts the
whole crawl: with the root page parsing fine and linking to `failBad`
whose fetch raises `boom`, the two-round crawl returns the propagated
error — the root's already-gathered record is not returned, the crawl
does not continue. -/
theorem c6_counterexample :
    ApiCrawl.get_parsed_website_content failEnv failRoot 1 [] =
      ⟨[.fetchPage failRoot, .fetchLinks failRoot, .fetchPage failBad],
        .error (.http "boom")⟩ := by
  decide

/-- C6 (amended): whenever the root of an iterative crawl parses
successfully and links to an admissible URL whose fetch+parse raises,
the whole `get_parsed_website_content` call evaluates to that error:
the PageRecord already gathered for the root is dropped and no further
frontier is processed, rather than the failure being recorded as an
omission. -/
theorem c6_failure_aborts (env : CrawlEnv) (url badUrl : String)
    (page : Page) (e : String)
    (hp : env.parsePage url = .ok page)
    (hl : env.pageUrls url = .ok [badUrl])
    (hbad : env.parsePage badUrl = .error e)
    (hadm : ApiCrawl.linkAdmissible (pyRstripSlash (pyUrlPath url)) []
      [url] [] badUrl = true) :
    ApiCrawl.get_parsed_website_content env url 1 [] =
      ⟨[.fetchPage url, .fetchLinks url, .fetchPage badUrl],
        .error (.http e)⟩ := by
  have hne : badUrl ∉ [url] := by
    simp only [ApiCrawl.linkAdmissible, Bool.and_eq_true, decide_eq_true_eq] at hadm
    exact hadm.1.1.1.2
  simp only [ApiCrawl.get_parsed_website_content, ApiCrawl.crawlRounds,
    ApiCrawl.processFrontier, hp, hl, hbad]
  simp [hadm, hne]
  simp [ApiCrawl.processFrontier, hbad, hne]
  have hne2 : badUrl ≠ url := by simpa using hne
  simp [hne2]

/-- C6 witness: the amended statement instantiated on `failEnv2`,
whose root links only to the failing page. -/
theorem c6_failure_aborts_witness :
    failEnv2.parsePage failRoot = .ok ⟨"T", "w"⟩ ∧
    failEnv2.pageUrls failRoot = .ok [failBad] ∧
    failEnv2.parsePage failBad = .error "boom" ∧
    ApiCrawl.linkAdmissible (pyRstripSlash (pyUrlPath failRoot)) []
      [failRoot] [] failBad = true ∧
    ApiCrawl.get_parsed_website_content failEnv2 failRoot 1 [] =
      ⟨[.fetchPage failRoot, .fetchLinks failRoot, .fetchPage failBad],
        .error (.http "boom")⟩ :=
  ⟨by decide, by decide, by decide, by decide,
    c6_failure_aborts failEnv2 failRoot failBad ⟨"T", "w"⟩ "boom"
      (by decide) (by decide) (by decide) (by decide)⟩

/-- The child loop of the recursive crawl preserves the visited-set
discipline: if the step taken for each link satisfies `CrawlStepSpec`
and the accumulator's records are pairwise distinct, drawn from the
visited set and disjoint from the baseline `vis₀`, then so are the
records of the whole loop. -/
theorem crawlChildrenSpec (step : String → List String → Crawl.Outcome)
    (hstep : CrawlStepSpec step) :
    ∀ (links : List String) (vis vis₀ : List String) (trace : List CrawlEvent)
      (acc : List Crawl.Record),
      vis.Nodup → vis₀ ⊆ vis →
      (acc.map Crawl.Record.url).Nodup →
      (∀ r ∈ acc, r.url ∈ vis) →
      (∀ r ∈ acc, r.url ∉ vis₀) →
      (Crawl.crawlChildren step links vis trace acc).visited.Nodup ∧
      vis ⊆ (Crawl.crawlChildren step links vis trace acc).visited ∧
      ∀ rs, (Crawl.crawlChildren step links vis trace acc).result = .ok rs →
        (rs.map Crawl.Record.url).Nodup ∧
        ∀ r ∈ rs,
          r.url ∈ (Crawl.crawlChildren step links vis trace acc).visited ∧
          r.url ∉ vis₀ := by
  intro links
  induction links with
  | nil =>
    intro vis vis₀ trace acc hv hsub haccN haccIn haccOut
    refine ⟨hv, fun x hx => hx, ?_⟩
    intro rs hrs
    simp only [Crawl.crawlChildren, Except.ok.injEq] at hrs
    subst hrs
    exact ⟨haccN, fun r hr => ⟨haccIn r hr, haccOut r hr⟩⟩
  | cons link rest ih =>
    intro vis vis₀ trace acc hv hsub haccN haccIn haccOut
    by_cases hg : link ∉ vis ∧ is_url_valid link = true
    · rw [show Crawl.crawlChildren step (link :: rest) vis trace acc =
          (match (step link vis).result with
           | .error e =>
             ⟨trace ++ (step link vis).trace, (step link vis).visited, .error e⟩
           | .ok recs =>
             Crawl.crawlChildren step rest (step link vis).visited
               (trace ++ (step link vis).trace) (acc ++ recs)) from by
        simp only [Crawl.crawlChildren]
        rw [if_pos hg]]
      obtain ⟨hrn, hrsub, hrres⟩ := hstep link vis hv
      cases hres : (step link vis).result with
      | error e =>
        refine ⟨hrn, fun x hx => hrsub hx, ?_⟩
        intro rs hrs
        simp at hrs
      | ok recs =>
        obtain ⟨hrecsN, hrecsIn⟩ := hrres recs hres
        have hN : ((acc ++ recs).map Crawl.Record.url).Nodup := by
          rw [List.map_append]
          refine List.Nodup.append haccN hrecsN ?_
          intro x hx hx'
          obtain ⟨r, hr, hru⟩ := List.mem_map.mp hx
          obtain ⟨r', hr', hru'⟩ := List.mem_map.mp hx'
          have hxin : x ∈ vis := hru ▸ haccIn r hr
          have hxout : x ∉ vis := hru' ▸ (hrecsIn r' hr').2
          exact hxout hxin
        have hIn : ∀ r ∈ acc ++ recs, r.url ∈ (step link vis).visited := by
          intro r hr
          rcases List.mem_append.mp hr with hr | hr
          · exact hrsub (haccIn r hr)
          · exact (hrecsIn r hr).1
        have hOut : ∀ r ∈ acc ++ recs, r.url ∉ vis₀ := by
          intro r hr
          rcases List.mem_append.mp hr with hr | hr
          · exact haccOut r hr
          · exact fun hmem => (hrecsIn r hr).2 (hsub hmem)
        have hmain := ih (step link vis).visited vis₀
          (trace ++ (step link vis).trace) (acc ++ recs) hrn
          (fun x hx => hrsub (hsub hx)) hN hIn hOut
        exact ⟨hmain.1, fun x hx => hmain.2.1 (hrsub hx), hmain.2.2⟩
    · rw [show Crawl.crawlChildren step (link :: rest) vis trace acc =
          Crawl.crawlChildren step rest vis trace acc from by
        simp only [Crawl.crawlChildren]
        rw [if_neg hg]]
      exact ih vis vis₀ trace acc hv hsub haccN haccIn haccOut

/-- The recursive crawl of `app/crawl.py` satisfies the visited-set
discipline at every depth. -/
theorem crawlStepSpecHolds (env : CrawlEnv) :
    ∀ d, CrawlStepSpec (Crawl.get_parsed_website_content env d) := by
  intro d
  induction d with
  | zero =>
    intro u vis hv
    refine ⟨hv, fun x hx => hx, ?_⟩
    intro rs hrs
    simp only [Crawl.get_parsed_website_content, Except.ok.injEq] at hrs
    subst hrs
    simp
  | succ d ih =>
    intro u vis hv
    by_cases hu : u ∈ vis
    · rw [show Crawl.get_parsed_website_content env (d + 1) u vis =
          ⟨[], vis, .ok []⟩ from by
        simp only [Crawl.get_parsed_website_content]
        rw [if_pos hu]]
      refine ⟨hv, fun x hx => hx, ?_⟩
      intro rs hrs
      simp only [Except.ok.injEq] at hrs
      subst hrs
      simp
    · have hv1 : (u :: vis).Nodup := List.nodup_cons.mpr ⟨hu, hv⟩
      have hsub1 : vis ⊆ u :: vis := fun x hx => List.mem_cons_of_mem _ hx
      rw [show Crawl.get_parsed_website_content env (d + 1) u vis =
          (match env.parsePage u with
           | .error e => ⟨[.fetchPage u], u :: vis, .error (.http e)⟩
           | .ok page =>
             if AppUtils.is_crawling_allowed (env.robots u) u then
               match env.pageUrls u with
               | .error e =>
                 ⟨[.fetchPage u, .robotsFetch u, .fetchLinks u], u :: vis,
                   .error (.http e)⟩
               | .ok links =>
                 Crawl.crawlChildren (Crawl.get_parsed_website_content env d)
                   links (u :: vis)
                   [.fetchPage u, .robotsFetch u, .fetchLinks u]
                   [⟨u, page.title, page.content, pyWordCount page.content, d + 1⟩]
             else ⟨[.fetchPage u, .robotsFetch u], u :: vis,
               .error (.disallowed u)⟩) from by
        simp only [Crawl.get_parsed_website_content]
        rw [if_neg hu]]
      cases hp : env.parsePage u with
      | error e =>
        refine ⟨hv1, hsub1, ?_⟩
        intro rs hrs
        simp at hrs
      | ok page =>
        dsimp only
        by_cases hr : AppUtils.is_crawling_allowed (env.robots u) u = true
        · rw [if_pos hr]
          cases hl : env.pageUrls u with
          | error e =>
            refine ⟨hv1, hsub1, ?_⟩
            intro rs hrs
            simp at hrs
          | ok links =>
            dsimp only
            have hmain := crawlChildrenSpec
              (Crawl.get_parsed_website_content env d) ih links (u :: vis) vis
              [.fetchPage u, .robotsFetch u, .fetchLinks u]
              [⟨u, page.title, page.content, pyWordCount page.content, d + 1⟩]
              hv1 hsub1 (by simp)
              (by intro r hr'; simp at hr'; subst hr'; exact List.mem_cons_self u vis)
              (by intro r hr'; simp at hr'; subst hr'; exact hu)
            exact ⟨hmain.1, fun x hx => hmain.2.1 (hsub1 hx), hmain.2.2⟩
        · rw [if_neg hr]
          refine ⟨hv1, hsub1, ?_⟩
          intro rs hrs
          simp at hrs

/-- Appending events to a trace appends their fetched URLs. -/
theorem fetchedUrlsAppend (t₁ t₂ : List CrawlEvent) :
    fetchedUrls (t₁ ++ t₂) = fetchedUrls t₁ ++ fetchedUrls t₂ := by
  simp [fetchedUrls, List.filterMap_append]

/-- The frontier loop of the iterative crawl fetches each URL at most
once: starting from a trace whose fetched URLs are duplicate-free and
all recorded in the visited set, the loop keeps them duplicate-free,
and on success every fetched URL is in the final visited set, which
contains the initial one. -/
theorem processFrontierFetchSpec (env : CrawlEnv) (bp : String)
    (omitUrlKeywords : List String) :
    ∀ (frontier : List String) (st : ApiCrawl.RoundState)
      (trace : List CrawlEvent),
      (fetchedUrls trace).Nodup →
      (∀ u ∈ fetchedUrls trace, u ∈ st.visited) →
      (fetchedUrls
        (ApiCrawl.processFrontier env bp omitUrlKeywords frontier st trace).1).Nodup ∧
      ∀ st', (ApiCrawl.processFrontier env bp omitUrlKeywords frontier st trace).2 =
          .ok st' →
        (∀ u ∈ fetchedUrls
          (ApiCrawl.processFrontier env bp omitUrlKeywords frontier st trace).1,
          u ∈ st'.visited) ∧
        st.visited ⊆ st'.visited := by
  intro frontier
  induction frontier with
  | nil =>
    intro st trace hN hIn
    refine ⟨hN, ?_⟩
    intro st' hst'
    simp only [ApiCrawl.processFrontier, Except.ok.injEq] at hst'
    subst hst'
    exact ⟨hIn, fun x hx => hx⟩
  | cons currentUrl rest ih =>
    intro st trace hN hIn
    by_cases hc : currentUrl ∈ st.visited
    · rw [show ApiCrawl.processFrontier env bp omitUrlKeywords
          (currentUrl :: rest) st trace =
          ApiCrawl.processFrontier env bp omitUrlKeywords rest st trace from by
        simp only [ApiCrawl.processFrontier]
        rw [if_pos hc]]
      exact ih st trace hN hIn
    · have hnf : currentUrl ∉ fetchedUrls trace := fun hmem => hc (hIn _ hmem)
      have hN1 : (fetchedUrls trace ++ [currentUrl]).Nodup := by
        refine List.Nodup.append hN (List.nodup_singleton _) ?_
        intro x hx hx'
        simp only [List.mem_singleton] at hx'
        subst hx'
        exact hnf hx
      rw [show ApiCrawl.processFrontier env bp omitUrlKeywords
          (currentUrl :: rest) st trace =
          (match env.parsePage currentUrl with
           | .error e => (trace ++ [.fetchPage currentUrl], .error (.http e))
           | .ok page =>
             match env.pageUrls currentUrl with
             | .error e =>
               (trace ++ [.fetchPage currentUrl, .fetchLinks currentUrl],
                 .error (.http e))
             | .ok links =>
               ApiCrawl.processFrontier env bp omitUrlKeywords rest
                 ⟨currentUrl :: st.visited,
                   links.foldl
                     (fun staged link =>
                       if ApiCrawl.linkAdmissible bp omitUrlKeywords
                           (currentUrl :: st.visited) staged link then
                         staged ++ [link]
                       else staged)
                     st.nextFrontier,
                   st.data ++ [page.content]⟩
                 (trace ++ [.fetchPage currentUrl, .fetchLinks currentUrl])) from by
        simp only [ApiCrawl.processFrontier]
        rw [if_neg hc]]
      cases hp : env.parsePage currentUrl with
      | error e =>
        refine ⟨?_, ?_⟩
        · rw [fetchedUrlsAppend]
          exact hN1
        · intro st' hst'
          simp at hst'
      | ok page =>
        dsimp only
        cases hl : env.pageUrls currentUrl with
        | error e =>
          refine ⟨?_, ?_⟩
          · rw [fetchedUrlsAppend]
            simpa [fetchedUrls] using hN1
          · intro st' hst'
            simp at hst'
        | ok links =>
          dsimp only
          have hN2 : (fetchedUrls (trace ++
              [CrawlEvent.fetchPage currentUrl,
               CrawlEvent.fetchLinks currentUrl])).Nodup := by
            rw [fetchedUrlsAppend]
            simpa [fetchedUrls] using hN1
          have hIn2 : ∀ u ∈ fetchedUrls (trace ++
              [CrawlEvent.fetchPage currentUrl,
               CrawlEvent.fetchLinks currentUrl]),
              u ∈ currentUrl :: st.visited := by
            intro u hu
            rw [fetchedUrlsAppend] at hu
            rcases List.mem_append.mp hu with hu | hu
            · exact List.mem_cons_of_mem _ (hIn u hu)
            · simp only [fetchedUrls, List.filterMap] at hu
              simp at hu
              subst hu
              exact List.mem_cons_self _ _
          have hmain := ih
            ⟨currentUrl :: st.visited,
              links.foldl
                (fun staged link =>
                  if ApiCrawl.linkAdmissible bp omitUrlKeywords
                      (currentUrl :: st.visited) staged link then
                    staged ++ [link]
                  else staged)
                st.nextFrontier,
              st.data ++ [page.content]⟩
            (trace ++ [CrawlEvent.fetchPage currentUrl,
              CrawlEvent.fetchLinks currentUrl]) hN2 hIn2
          refine ⟨hmain.1, ?_⟩
          intro st' hst'
          obtain ⟨hmem, hsub⟩ := hmain.2 st' hst'
          exact ⟨hmem, fun x hx =>
            hsub (List.mem_cons_of_mem _ hx)⟩

/-- Across rounds, the iterative crawl's fetched URLs stay
duplicate-free. -/
theorem crawlRoundsFetchSpec (env : CrawlEnv) (bp : String)
    (omitUrlKeywords : List String) :
    ∀ (n : Nat) (frontier visited data : List String)
      (trace : List CrawlEvent),
      (fetchedUrls trace).Nodup →
      (∀ u ∈ fetchedUrls trace, u ∈ visited) →
      (fetchedUrls
        (ApiCrawl.crawlRounds env bp omitUrlKeywords n frontier visited data
          trace).trace).Nodup := by
  intro n
  induction n with
  | zero =>
    intro frontier visited data trace hN _
    exact hN
  | succ n ih =>
    intro frontier visited data trace hN hIn
    have hpf := processFrontierFetchSpec env bp omitUrlKeywords frontier
      ⟨visited, [], data⟩ trace hN hIn
    simp only [ApiCrawl.crawlRounds]
    cases hres : ApiCrawl.processFrontier env bp omitUrlKeywords frontier
        ⟨visited, [], data⟩ trace with
    | mk tr res =>
      rw [hres] at hpf
      dsimp only at hpf
      cases res with
      | error e =>
        dsimp only
        exact hpf.1
      | ok st =>
        dsimp only
        exact ih st.nextFrontier st.visited st.data tr hpf.1 (hpf.2 st rfl).1

/-- C4: every crawl produces at most one record per distinct URL, even
on cyclic link graphs.  For the recursive crawl of `app/crawl.py`:
starting from a duplicate-free visited set, the final visited set is
duplicate-free (each URL is added at most once — and by construction
it is added before the URL's outbound links are followed), and any
returned record list has pairwise-distinct URLs, none of them
previously visited.  For the iterative crawl of `app/api/crawl.py`:
the URLs of the pages fetched over the whole crawl are
pairwise-distinct. -/
theorem c4_visited_once (env : CrawlEnv) (depth : Nat) (url : String)
    (visited : List String) (h : visited.Nodup) :
    ((Crawl.get_parsed_website_content env depth url visited).visited.Nodup ∧
      ∀ rs, (Crawl.get_parsed_website_content env depth url visited).result =
          .ok rs →
        (rs.map Crawl.Record.url).Nodup ∧ ∀ r ∈ rs, r.url ∉ visited) ∧
    ∀ (maxDepth : Nat) (omitUrlKeywords : List String),
      (fetchedUrls
        (ApiCrawl.get_parsed_website_content env url maxDepth
          omitUrlKeywords).trace).Nodup := by
  constructor
  · obtain ⟨h1, _, h3⟩ := crawlStepSpecHolds env depth url visited h
    exact ⟨h1, fun rs hrs => ⟨(h3 rs hrs).1, fun r hr => ((h3 rs hrs).2 r hr).2⟩⟩
  · intro maxDepth omitUrlKeywords
    exact crawlRoundsFetchSpec env (pyRstripSlash (pyUrlPath url))
      omitUrlKeywords (maxDepth + 1) [url] [] [] [] (by simp [fetchedUrls])
      (by simp [fetchedUrls])

/-- C4 witness: the statement instantiated on the cyclic two-page site
`cycEnv` (its pages link to each other and to themselves) with an
empty initial visited set; the crawl at depth 3 returns exactly one
record per page. -/
theorem c4_visited_once_witness :
    ([] : List String).Nodup ∧
    (((Crawl.get_parsed_website_content cycEnv 3 cycRoot []).visited.Nodup ∧
      ∀ rs, (Crawl.get_parsed_website_content cycEnv 3 cycRoot []).result =
          .ok rs →
        (rs.map Crawl.Record.url).Nodup ∧ ∀ r ∈ rs, r.url ∉ ([] : List String)) ∧
     ∀ (maxDepth : Nat) (omitUrlKeywords : List String),
      (fetchedUrls
        (ApiCrawl.get_parsed_website_content cycEnv cycRoot maxDepth
          omitUrlKeywords).trace).Nodup) ∧
    (Crawl.get_parsed_website_content cycEnv 3 cycRoot []).result =
      .ok [⟨cycRoot, "T", "w", 1, 3⟩, ⟨cycOther, "T", "w", 1, 2⟩] :=
  ⟨by decide, c4_visited_once cycEnv 3 cycRoot [] (by decide), by decide⟩

/-- `stripPre` succeeds exactly on lists with the given prefix. -/
theorem stripPreSome : ∀ (p cs r : List Char),
    stripPre p cs = some r ↔ cs = p ++ r := by
  intro p
  induction p with
  | nil =>
    intro cs r
    simp [stripPre]
  | cons pc pt ih =>
    intro cs r
    cases cs with
    | nil => simp [stripPre]
    | cons c ct =>
      simp only [stripPre]
      by_cases hc : c = pc
      · rw [if_pos hc, ih]
        subst hc
        simp
      · rw [if_neg hc]
        simp [hc]

/-- What `afterHttpFtp` consumed, when it succeeds. -/
theorem afterHttpFtpSome (cs r : List Char) (h : afterHttpFtp cs = some r) :
    cs = ':' :: '/' :: '/' :: r ∨ cs = 's' :: ':' :: '/' :: '/' :: r := by
  unfold afterHttpFtp at h
  split at h
  · rename_i rest
    right
    rw [(stripPreSome [':', '/', '/'] rest r).mp h]
    rfl
  · left
    rw [(stripPreSome [':', '/', '/'] cs r).mp h]
    rfl

/-- `stripScheme` succeeds exactly after one of the four scheme
prefixes. -/
theorem stripSchemeSome (cs r : List Char) (h : stripScheme cs = some r) :
    ∃ sch ∈ schemeLits, cs = sch ++ [':', '/', '/'] ++ r := by
  unfold stripScheme at h
  cases h1 : stripPre ['h', 't', 't', 'p'] cs with
  | some rest =>
    rw [h1] at h
    have hcs := (stripPreSome ['h', 't', 't', 'p'] cs rest).mp h1
    rcases afterHttpFtpSome rest r h with hr | hr
    · exact ⟨['h', 't', 't', 'p'], by decide, by rw [hcs, hr]; rfl⟩
    · exact ⟨['h', 't', 't', 'p', 's'], by decide, by rw [hcs, hr]; rfl⟩
  | none =>
    rw [h1] at h
    cases h2 : stripPre ['f', 't', 'p'] cs with
    | some rest =>
      rw [h2] at h
      have hcs := (stripPreSome ['f', 't', 'p'] cs rest).mp h2
      rcases afterHttpFtpSome rest r h with hr | hr
      · exact ⟨['f', 't', 'p'], by decide, by rw [hcs, hr]; rfl⟩
      · exact ⟨['f', 't', 'p', 's'], by decide, by rw [hcs, hr]; rfl⟩
    | none =>
      rw [h2] at h
      exact absurd h (by simp)

/-- `stripScheme` computed on each scheme literal. -/
theorem stripSchemeLit (sch : List Char) (hs : sch ∈ schemeLits)
    (rest : List Char) :
    stripScheme (sch ++ [':', '/', '/'] ++ rest) = some rest := by
  have h4 : ∀ x, stripPre [':', '/', '/'] (':' :: '/' :: '/' :: x) = some x := by
    intro x
    simp [stripPre]
  simp only [schemeLits, List.mem_cons, List.not_mem_nil, or_false] at hs
  rcases hs with rfl | rfl | rfl | rfl <;>
    simp [stripScheme, stripPre, afterHttpFtp, h4]

/-- `matchTail` accepts exactly the end, a single final newline, or a
space-free `/`-path. -/
theorem matchTailCases (t : List Char) (h : matchTail t = true) :
    t = [] ∨ t = ['\n'] ∨ ∃ p, t = '/' :: p ∧ ∀ c ∈ p, c ≠ ' ' := by
  unfold matchTail at h
  split at h
  · exact Or.inl rfl
  · exact Or.inr (Or.inl rfl)
  · rename_i rest
    refine Or.inr (Or.inr ⟨rest, rfl, ?_⟩)
    intro c hc
    have := (List.all_eq_true.mp h) c hc
    simpa using this
  · exact absurd h (by simp)

/-- The converse computation of `matchTail` on its accepted forms. -/
theorem matchTailOk :
    matchTail [] = true ∧ matchTail ['\n'] = true ∧
    ∀ p, (∀ c ∈ p, c ≠ ' ') → matchTail ('/' :: p) = true := by
  refine ⟨rfl, rfl, ?_⟩
  intro p hp
  simp only [matchTail, List.all_eq_true]
  intro c hc
  simpa using hp c hc

/-- `splitDot` never returns the empty list. -/
theorem splitDotNeNil : ∀ cs : List Char, splitDot cs ≠ [] := by
  intro cs
  cases cs with
  | nil => simp [splitDot]
  | cons c rest =>
    by_cases hc : c = '.'
    · simp [splitDot, hc]
    · simp only [splitDot, if_neg hc]
      cases splitDot rest with
      | nil => simp
      | cons p ps => simp

/-- `joinDots` on a cons with a non-empty remainder. -/
theorem joinDotsCons (p : List Char) (q : List Char) (ps : List (List Char)) :
    joinDots (p :: q :: ps) = p ++ '.' :: joinDots (q :: ps) := by
  rfl

/-- Prepending a character to the first part commutes with
`joinDots`. -/
theorem joinDotsConsHead (c : Char) (p : List Char) (ps : List (List Char)) :
    joinDots ((c :: p) :: ps) = c :: joinDots (p :: ps) := by
  cases ps with
  | nil => rfl
  | cons q qs => rfl

/-- `joinDots` inverts `splitDot`. -/
theorem splitDotJoin : ∀ cs : List Char, joinDots (splitDot cs) = cs := by
  intro cs
  induction cs with
  | nil => rfl
  | cons c rest ih =>
    by_cases hc : c = '.'
    · subst hc
      have hs : splitDot ('.' :: rest) = [] :: splitDot rest := by
        simp [splitDot]
      rw [hs]
      obtain ⟨p, ps, h⟩ := List.exists_cons_of_ne_nil (splitDotNeNil rest)
      rw [h, joinDotsCons, ← h, ih]
      rfl
    · simp only [splitDot, if_neg hc]
      obtain ⟨p, ps, h⟩ := List.exists_cons_of_ne_nil (splitDotNeNil rest)
      rw [h]
      dsimp only
      rw [joinDotsConsHead, ← h, ih]

/-- `splitDot` of a dot-free list is that single part. -/
theorem splitDotNoDot : ∀ p : List Char, ('.' ∉ p) → splitDot p = [p] := by
  intro p
  induction p with
  | nil => intro _; rfl
  | cons c rest ih =>
    intro h
    have hc : c ≠ '.' := fun hcc => h (hcc ▸ List.mem_cons_self c rest)
    have hrest : '.' ∉ rest := fun hm => h (List.mem_cons_of_mem c hm)
    simp only [splitDot, if_neg hc, ih hrest]

/-- `splitDot` of a dot-free part glued by a dot onto a remainder. -/
theorem splitDotGlue : ∀ (p z : List Char), ('.' ∉ p) →
    splitDot (p ++ '.' :: z) = p :: splitDot z := by
  intro p
  induction p with
  | nil =>
    intro z _
    simp [splitDot]
  | cons c rest ih =>
    intro z h
    have hc : c ≠ '.' := fun hcc => h (hcc ▸ List.mem_cons_self c rest)
    have hrest : '.' ∉ rest := fun hm => h (List.mem_cons_of_mem c hm)
    simp only [List.cons_append, splitDot, if_neg hc]
    rw [List.append_eq, ih z hrest]

/-- `splitDot` inverts `joinDots` on non-empty lists of dot-free
parts. -/
theorem splitDotOfJoin : ∀ parts : List (List Char), parts ≠ [] →
    (∀ p ∈ parts, '.' ∉ p) → splitDot (joinDots parts) = parts := by
  intro parts
  induction parts with
  | nil => intro h _; exact absurd rfl h
  | cons p ps ih =>
    intro _ hfree
    cases ps with
    | nil =>
      exact splitDotNoDot p (hfree p (List.mem_cons_self _ _))
    | cons q qs =>
      rw [joinDotsCons,
        splitDotGlue p (joinDots (q :: qs)) (hfree p (List.mem_cons_self _ _)),
        ih (by simp) (fun x hx => hfree x (List.mem_cons_of_mem _ hx))]

/-- Every character of a `joinDots` of label parts is a domain
character. -/
theorem memJoinDotsDomChar : ∀ (parts : List (List Char)),
    (∀ p ∈ parts, ∀ c ∈ p, isLabelChar c = true) →
    ∀ c ∈ joinDots parts, isDomChar c = true := by
  intro parts
  induction parts with
  | nil => intro _ c hc; simp [joinDots] at hc
  | cons p ps ih =>
    intro hlab c hc
    cases ps with
    | nil =>
      have hc' : c ∈ p := hc
      have hl := hlab p (List.mem_cons_self _ _) c hc'
      simp [isDomChar, hl]
    | cons q qs =>
      rw [joinDotsCons] at hc
      rcases List.mem_append.mp hc with hc | hc
      · simp [isDomChar, hlab p (List.mem_cons_self _ _) c hc]
      · rcases List.mem_cons.mp hc with rfl | hc
        · simp [isDomChar]
        · exact ih (fun x hx => hlab x (List.mem_cons_of_mem _ hx)) c hc

/-- `takeWhile` passes over a fully-satisfying prefix. -/
theorem takeWhileAll (p : Char → Bool) :
    ∀ (xs ys : List Char), (∀ c ∈ xs, p c = true) →
    (xs ++ ys).takeWhile p = xs ++ ys.takeWhile p := by
  intro xs
  induction xs with
  | nil => intro ys _; rfl
  | cons x xt ih =>
    intro ys h
    rw [List.cons_append, List.takeWhile_cons,
      if_pos (h x (List.mem_cons_self _ _)), ih ys
        (fun c hc => h c (List.mem_cons_of_mem _ hc)), List.cons_append]

/-- `dropWhile` skips a fully-satisfying prefix. -/
theorem dropWhileAll (p : Char → Bool) :
    ∀ (xs ys : List Char), (∀ c ∈ xs, p c = true) →
    (xs ++ ys).dropWhile p = ys.dropWhile p := by
  intro xs
  induction xs with
  | nil => intro ys _; rfl
  | cons x xt ih =>
    intro ys h
    rw [List.cons_append, List.dropWhile_cons,
      if_pos (h x (List.mem_cons_self _ _)), ih ys
        (fun c hc => h c (List.mem_cons_of_mem _ hc))]

/-- `validDomain` certifies the spec-side `DomainOk`. -/
theorem validDomainOk (dom : List Char) (h : validDomain dom = true) :
    DomainOk dom := by
  unfold validDomain at h
  rw [Bool.and_eq_true] at h
  obtain ⟨hlen, hall⟩ := h
  refine ⟨splitDot dom, by simpa using hlen, ?_, (splitDotJoin dom).symm⟩
  intro p hp
  have := List.all_eq_true.mp hall p hp
  rw [Bool.and_eq_true] at this
  refine ⟨fun hnil => by simp [hnil] at this, ?_⟩
  intro c hc
  exact List.all_eq_true.mp this.2 c hc

/-- Conversely, `DomainOk` evaluates `validDomain` to `true`. -/
theorem validDomainOfOk (dom : List Char) (h : DomainOk dom) :
    validDomain dom = true := by
  obtain ⟨parts, hlen, hlab, rfl⟩ := h
  have hnil : parts ≠ [] := by
    intro hp
    rw [hp] at hlen
    simp at hlen
  have hfree : ∀ p ∈ parts, '.' ∉ p := by
    intro p hp hdot
    have := (hlab p hp).2 '.' hdot
    simp [isLabelChar] at this
  unfold validDomain
  rw [splitDotOfJoin parts hnil hfree, Bool.and_eq_true]
  refine ⟨by simpa using hlen, ?_⟩
  rw [List.all_eq_true]
  intro p hp
  rw [Bool.and_eq_true]
  exact ⟨by simpa using (hlab p hp).1,
    List.all_eq_true.mpr (fun c hc => (hlab p hp).2 c hc)⟩

/-- `DomainOk` domains consist of domain characters only. -/
theorem domainOkChars (dom : List Char) (h : DomainOk dom) :
    ∀ c ∈ dom, isDomChar c = true := by
  obtain ⟨parts, _, hlab, rfl⟩ := h
  exact memJoinDotsDomChar parts (fun p hp c hc => (hlab p hp).2 c hc)

/-- A `DomainOk` domain is non-empty. -/
theorem domainOkNe (dom : List Char) (h : DomainOk dom) : dom ≠ [] := by
  obtain ⟨parts, hlen, hlab, rfl⟩ := h
  cases parts with
  | nil => simp at hlen
  | cons p ps =>
    cases ps with
    | nil => simp at hlen
    | cons q qs =>
      rw [joinDotsCons]
      have : p ≠ [] := (hlab p (List.mem_cons_self _ _)).1
      intro hcontra
      rcases List.append_eq_nil.mp hcontra with ⟨hp, _⟩
      exact this hp

/-- The accepting computation of `matchHost` on a shaped host: any
`www.`/domain/path/newline-suffix decomposition satisfies the span
matcher. -/
theorem matchHostAccept (w dom tail ext : List Char)
    (hw : w = [] ∨ w = ['w', 'w', 'w', '.'])
    (hdom : DomainOk dom) (htail : PathOk tail)
    (hext : ext = [] ∨ ext = ['\n']) :
    matchHost (w ++ dom ++ (tail ++ ext)) = true := by
  have hwchars : ∀ c ∈ w, isDomChar c = true := by
    rcases hw with rfl | rfl
    · intro c hc; simp at hc
    · intro c hc
      simp only [List.mem_cons, List.not_mem_nil, or_false] at hc
      rcases hc with rfl | rfl | rfl | rfl <;> decide
  have hdchars := domainOkChars dom hdom
  have hwd : ∀ c ∈ w ++ dom, isDomChar c = true := by
    intro c hc
    rcases List.mem_append.mp hc with hc | hc
    · exact hwchars c hc
    · exact hdchars c hc
  have hvd : validDomain (w ++ dom) = true := by
    rcases hw with rfl | rfl
    · simpa using validDomainOfOk dom hdom
    · obtain ⟨parts, hlen, hlab, hj⟩ := hdom
      apply validDomainOfOk
      refine ⟨['w', 'w', 'w'] :: parts, ?_, ?_, ?_⟩
      · simp; omega
      · intro p hp
        rcases List.mem_cons.mp hp with rfl | hp
        · exact ⟨by simp, by decide⟩
        · exact hlab p hp
      · cases parts with
        | nil => simp at hlen
        | cons q qs =>
          rw [joinDotsCons, hj]
          rfl
  unfold matchHost
  rw [Bool.and_eq_true]
  rcases htail with rfl | ⟨pp, rfl, hpp⟩
  · rcases hext with rfl | rfl
    · rw [show w ++ dom ++ ([] ++ []) = (w ++ dom) ++ [] from by simp,
        takeWhileAll _ _ _ hwd, dropWhileAll _ _ _ hwd]
      exact ⟨by simpa using hvd, matchTailOk.1⟩
    · rw [show w ++ dom ++ ([] ++ ['\n']) = (w ++ dom) ++ ['\n'] from by simp,
        takeWhileAll _ _ _ hwd, dropWhileAll _ _ _ hwd]
      refine ⟨?_, ?_⟩
      · rw [show List.takeWhile isDomChar ['\n'] = [] from by decide,
          List.append_nil]
        exact hvd
      · rw [show List.dropWhile isDomChar ['\n'] = ['\n'] from by decide]
        exact matchTailOk.2.1
  · rw [show w ++ dom ++ (('/' :: pp) ++ ext) = (w ++ dom) ++ '/' :: (pp ++ ext)
      from by simp,
      takeWhileAll _ _ _ hwd, dropWhileAll _ _ _ hwd]
    have hslash : isDomChar '/' = false := by decide
    rw [show List.takeWhile isDomChar ('/' :: (pp ++ ext)) = [] from by
        simp [List.takeWhile_cons, hslash],
      List.append_nil,
      show List.dropWhile isDomChar ('/' :: (pp ++ ext)) = '/' :: (pp ++ ext)
        from by simp [List.dropWhile_cons, hslash]]
    refine ⟨hvd, matchTailOk.2.2 (pp ++ ext) ?_⟩
    intro c hc
    rcases List.mem_append.mp hc with hc | hc
    · exact hpp c hc
    · rcases hext with rfl | rfl
      · simp at hc
      · simp only [List.mem_singleton] at hc
        subst hc
        decide

/-- Decomposition of an accepted host: a shaped domain/path, possibly
with a final newline absorbed by `$`. -/
theorem matchHostShape (rest : List Char) (h : matchHost rest = true) :
    (∃ dom tail, DomainOk dom ∧ PathOk tail ∧ rest = dom ++ tail) ∨
    (∃ dom, DomainOk dom ∧ rest = dom ++ ['\n']) := by
  unfold matchHost at h
  rw [Bool.and_eq_true] at h
  obtain ⟨hvd, htl⟩ := h
  have hdom := validDomainOk _ hvd
  have hrest : rest = rest.takeWhile isDomChar ++ rest.dropWhile isDomChar :=
    (List.takeWhile_append_dropWhile ..).symm
  rcases matchTailCases _ htl with ht | ht | ⟨p, ht, hp⟩
  · exact Or.inl ⟨rest.takeWhile isDomChar, [], hdom, Or.inl rfl,
      by rw [ht] at hrest; exact hrest⟩
  · exact Or.inr ⟨rest.takeWhile isDomChar, hdom,
      by rw [ht] at hrest; exact hrest⟩
  · exact Or.inl ⟨rest.takeWhile isDomChar, '/' :: p, hdom,
      Or.inr ⟨p, rfl, hp⟩, by rw [ht] at hrest; exact hrest⟩

/-- The matcher agrees with the spec shape up to Python's `$`
final-newline allowance. -/
theorem matchUrlIff (cs : List Char) :
    matchUrlChars cs = true ↔
      (UrlShapeChars cs ∨ ∃ ds, cs = ds ++ ['\n'] ∧ UrlShapeChars ds) := by
  constructor
  · intro h
    unfold matchUrlChars at h
    cases hs : stripScheme cs with
    | none => rw [hs] at h; simp at h
    | some rest =>
      rw [hs] at h
      obtain ⟨sch, hsch, hcs⟩ := stripSchemeSome cs rest hs
      rw [Bool.or_eq_true] at h
      rcases h with h | h
      · rcases matchHostShape rest h with
          ⟨dom, tail, hdom, htail, hrest⟩ | ⟨dom, hdom, hrest⟩
        · exact Or.inl ⟨sch, [], dom, tail, hsch, Or.inl rfl, hdom, htail,
            by rw [hcs, hrest]; simp⟩
        · refine Or.inr ⟨sch ++ [':', '/', '/'] ++ dom,
            by rw [hcs, hrest]; simp, sch, [], dom, [], hsch, Or.inl rfl,
            hdom, Or.inl rfl, by simp⟩
      · cases hw : stripPre ['w', 'w', 'w', '.'] rest with
        | none => rw [hw] at h; simp at h
        | some r =>
          rw [hw] at h
          dsimp only at h
          have hrest : rest = ['w', 'w', 'w', '.'] ++ r :=
            (stripPreSome _ _ _).mp hw
          rcases matchHostShape r h with
            ⟨dom, tail, hdom, htail, hr⟩ | ⟨dom, hdom, hr⟩
          · exact Or.inl ⟨sch, ['w', 'w', 'w', '.'], dom, tail, hsch,
              Or.inr rfl, hdom, htail, by rw [hcs, hrest, hr]; simp⟩
          · refine Or.inr ⟨sch ++ [':', '/', '/'] ++ ['w', 'w', 'w', '.'] ++ dom,
              by rw [hcs, hrest, hr]; simp, sch, ['w', 'w', 'w', '.'], dom, [],
              hsch, Or.inr rfl, hdom, Or.inl rfl, by simp⟩
  · intro h
    unfold matchUrlChars
    rcases h with ⟨sch, w, dom, tail, hsch, hw, hdom, htail, heq⟩ |
      ⟨ds, hds, sch, w, dom, tail, hsch, hw, hdom, htail, heq⟩
    · have hstrip : stripScheme cs = some (w ++ dom ++ (tail ++ [])) := by
        rw [heq, show sch ++ [':', '/', '/'] ++ w ++ dom ++ tail =
          sch ++ [':', '/', '/'] ++ (w ++ dom ++ (tail ++ [])) from by simp]
        exact stripSchemeLit sch hsch _
      rw [hstrip]
      dsimp only
      rw [Bool.or_eq_true]
      exact Or.inl (matchHostAccept w dom tail [] hw hdom htail (Or.inl rfl))
    · have hstrip : stripScheme cs = some (w ++ dom ++ (tail ++ ['\n'])) := by
        rw [hds, heq, show sch ++ [':', '/', '/'] ++ w ++ dom ++ tail ++ ['\n'] =
          sch ++ [':', '/', '/'] ++ (w ++ dom ++ (tail ++ ['\n'])) from by simp]
        exact stripSchemeLit sch hsch _
      rw [hstrip]
      dsimp only
      rw [Bool.or_eq_true]
      exact Or.inl (matchHostAccept w dom tail ['\n'] hw hdom htail (Or.inr rfl))

/-- C9 (amended): `is_url_valid` accepts a string exactly when it
matches the shape `scheme://[www.]domain.tld[/path]` with scheme in
{http, https, ftp, ftps} — or is such a match followed by one trailing
newline, which Python's `$` anchor also accepts.  In particular the
claim's examples hold: `"https://example.com/path"` is accepted and
`"not a url"` is rejected. -/
theorem c9_url_valid_iff :
    (∀ s : String, is_url_valid s = true ↔
      (UrlShapeChars s.data ∨
        ∃ ds, s.data = ds ++ ['\n'] ∧ UrlShapeChars ds)) ∧
    is_url_valid "https://example.com/path" = true ∧
    is_url_valid "not a url" = false := by
  refine ⟨?_, by decide, by decide⟩
  intro s
  exact matchUrlIff s.data

/-- C9 counterexample: `is_url_valid "https://example.com\n"` returns
`true` although the string — carrying a trailing newline — does not
match the shape `scheme://[www.]domain.tld[/path]`: the claimed
"if and only if" fails on the code because Python's `$` also matches
just before a final newline. -/
theorem c9_counterexample :
    is_url_valid "https://example.com\n" = true ∧
    ¬ UrlShapeChars ("https://example.com\n").data := by
  constructor
  · decide
  · rintro ⟨sch, w, dom, tail, hsch, hw, hdom, htail, heq⟩
    have hs0 : sch.count '\n' = 0 := by
      simp only [schemeLits, List.mem_cons, List.not_mem_nil, or_false] at hsch
      rcases hsch with rfl | rfl | rfl | rfl <;> decide
    have hs1 : sch.count '/' = 0 := by
      simp only [schemeLits, List.mem_cons, List.not_mem_nil, or_false] at hsch
      rcases hsch with rfl | rfl | rfl | rfl <;> decide
    have hw0 : w.count '\n' = 0 := by
      rcases hw with rfl | rfl <;> decide
    have hw1 : w.count '/' = 0 := by
      rcases hw with rfl | rfl <;> decide
    have hd0 : dom.count '\n' = 0 := by
      rw [List.count_eq_zero]
      intro hmem
      have := domainOkChars dom hdom '\n' hmem
      simp [isDomChar, isLabelChar] at this
    have hd1 : dom.count '/' = 0 := by
      rw [List.count_eq_zero]
      intro hmem
      have := domainOkChars dom hdom '/' hmem
      simp [isDomChar, isLabelChar] at this
    rcases htail with rfl | ⟨p, rfl, _⟩
    · have hcount : (("https://example.com\n").data).count '\n' = 1 := by
        decide
      rw [heq] at hcount
      simp only [List.count_append, List.append_nil] at hcount
      rw [hs0, hw0, hd0] at hcount
      have hc2 : ([':', '/', '/'] : List Char).count '\n' = 0 := by decide
      rw [hc2] at hcount
      simp at hcount
    · have hcount : (("https://example.com\n").data).count '/' = 2 := by
        decide
      rw [heq] at hcount
      simp only [List.count_append] at hcount
      rw [hs1, hw1, hd1] at hcount
      have hc2 : ([':', '/', '/'] : List Char).count '/' = 2 := by decide
      rw [hc2] at hcount
      have hc3 : ('/' :: p).count '/' = p.count '/' + 1 := by
        simp [List.count_cons]
      rw [hc3] at hcount
      omega
